import Mathlib

/-!
Shallow embedding of the deplex plane-extraction pipeline
(`src/cpp/deplex/src/deplex/algorithm/plane_extractor.cpp` and
`src/cpp/deplex/src/deplex/histogram.cpp`) in Lean 4, together with
theorems settling the frozen claims about it.

Modelling conventions:
* machine floats/doubles are modelled by `ℚ`; transcendental operations
  (`sqrt`, `acos`, `atan2`) and the float casts inside them are supplied by
  an abstract `Oracle` of deterministic functions, since their exact float
  behaviour is not expressible in `ℚ`;
* the implementation of `CellSegment` / `CellSegmentStat`
  (files `cell_segment.cpp` / `cell_segment_stat.*` are not part of the
  sources at hand, only the header `cell_segment.h` is) is modelled from the
  spec: a segment carries abstract accumulated sums plus cached derived
  statistics (normal, mean, offset, MSE, score); `operator+=` adds the sums
  and keeps the cached statistics, `calculateStats` recomputes them
  (spec section on PlanarStats: merge is element-wise addition of sums,
  `calculate_stats()` recomputes the derived quantities);
* buffers (`cv::Mat`, `std::vector`, `std::bitset`) are modelled as total
  functions from indices, written by explicit pointwise updates in the same
  loop order as the source;
* `uchar` truncation of labels is not modelled (labels stay in `ℕ`); no
  claim below depends on label values above 255.
-/

namespace Deplex

attribute [local semireducible] Rat.add Rat.mul Rat.sub Rat.inv

/-- A 3D point or vector with rational coordinates. -/
abbrev V3 : Type := ℚ × ℚ × ℚ

/-- Euclidean dot product on `V3`. -/
def dot3 (a b : V3) : ℚ := a.1 * b.1 + a.2.1 * b.2.1 + a.2.2 * b.2.2

/-- `pow(x, 2)`: squaring. -/
def sqQ (q : ℚ) : ℚ := q * q

/-- `std::min` on rationals. -/
def minQ (a b : ℚ) : ℚ := if a ≤ b then a else b

/-- `std::max` on rationals. -/
def maxQ (a b : ℚ) : ℚ := if b ≤ a then a else b

/-- Pointwise update of a function, used to model writes into buffers. -/
def upd {β α : Type} [DecidableEq β] (f : β → α) (i : β) (v : α) : β → α :=
  fun j => if j = i then v else f j

/-- Derived (cached) statistics of a `CellSegmentStat`: fitted plane normal,
mean point, plane offset `d`, mean squared error and planarity score. -/
structure Derived where
  normal : V3
  mean : V3
  d : ℚ
  mse : ℚ
  score : ℚ
deriving DecidableEq

/-- Modelled from the spec: the numeric kernels that are not part of the
sources at hand (`cell_segment*.cpp`: point accumulation, eigendecomposition,
planarity tests) and the transcendental float operations used by the sources
(`sqrt`, `acos`, `atan2` and the `int32_t` casts of their results).  Each
field is a deterministic function, exactly as the corresponding C++ code is
deterministic in its inputs. -/
structure Oracle : Type 1 where
  /-- type of the accumulated first/second moment sums of a point set -/
  Sums : Type
  /-- `operator+=` on raw sums: element-wise addition -/
  addSums : Sums → Sums → Sums
  /-- accumulation of a cell's (P*P) points into sums -/
  cellSums : List V3 → Sums
  /-- `calculateStats`: eigendecomposition producing the derived statistics -/
  derive : Sums → Derived
  /-- the `isPlanar` decision of the `CellSegment` constructor -/
  cellPlanar : List V3 → Bool
  /-- float `sqrt` -/
  sqrtQ : ℚ → ℚ
  /-- `initializeHistogram`: `(acos(-n.z), atan2(nx/|nxy|, ny/|nxy|), 0)` -/
  sphericalCoords : V3 → V3
  /-- `Histogram` constructor: the two quantization casts `X_q` and the raw
  (pre-special-rule) `Y_q` computed from one row of its `normals` input -/
  binCoords : V3 → ℤ × ℤ

/-- A `CellSegment`: accumulated sums plus cached derived statistics. -/
structure Seg (O : Oracle) where
  sums : O.Sums
  der : Derived

/-- `CellSegment::operator+=`: sums are added, the cached derived statistics
are left stale until `calculateStats` is called. -/
def Seg.add {O : Oracle} (a b : Seg O) : Seg O :=
  { sums := O.addSums a.sums b.sums, der := a.der }

/-- `CellSegment::calculateStats`: recompute the derived statistics. -/
def Seg.calc {O : Oracle} (a : Seg O) : Seg O :=
  { sums := a.sums, der := O.derive a.sums }

/-- `CellSegment` constructor: accumulate the cell's points and compute
its statistics. -/
def mkCell (O : Oracle) (pts : List V3) : Seg O :=
  { sums := O.cellSums pts, der := O.derive (O.cellSums pts) }

/-- The configuration options read by the pipeline (`PlaneExtractor`). -/
structure Config where
  patchSize : ℕ
  histogramBinsPerCoord : ℕ
  minCosAngleForMerge : ℚ
  maxMergeDist : ℚ
  minRegionGrowingCandidateSize : ℕ
  minRegionGrowingCellsActivated : ℕ
  minRegionPlanarityScore : ℚ
  doRefinement : Bool
  refinementMultiplierCoeff : ℚ

/-- `INT_MAX` (`2^31 - 1`), the initial value of `min_mse` in seed
selection. -/
def intMaxQ : ℚ := 2147483647

/-- `MAXFLOAT`, the initial value of the per-pixel distance buffer:
the largest finite `float`, `(2 - 2^-23) * 2^127 = 2^128 - 2^104`. -/
def maxFloatQ : ℚ := 340282346638528859811704183484516925440

/-! ## Histogram (`histogram.cpp`) -/

/-- The `Histogram`: bins-per-coordinate, number of points, the bin
occupancy vector `hist_` and the per-point bin assignment `bins_`
(`-1` when the point is not in the histogram). -/
structure Histogram where
  nrBinsPerCoord : ℕ
  nrPoints : ℕ
  hist : ℤ → ℤ
  bins : ℕ → ℤ

/-- The bin id computed by the `Histogram` constructor for one masked row:
`X_q` and raw `Y_q` come from the quantization casts (`coords`), the special
rule forces `Y_q = 0` unless `X_q > 0`, and the bin is `Y_q * B + X_q`. -/
def binOfCoords (nrBinsPerCoord : ℕ) (c : ℤ × ℤ) : ℤ :=
  (if 0 < c.1 then c.2 else 0) * (nrBinsPerCoord : ℤ) + c.1

/-- One masked point of the `Histogram` constructor loop: assign its bin
and increment the bin's occupancy. -/
def histBuildStep (nrBinsPerCoord : ℕ) (coords : ℕ → ℤ × ℤ) (mask : ℕ → Bool)
    (acc : (ℤ → ℤ) × (ℕ → ℤ)) (i : ℕ) : (ℤ → ℤ) × (ℕ → ℤ) :=
  if mask i then
    let bin := binOfCoords nrBinsPerCoord (coords i)
    (upd acc.1 bin (acc.1 bin + 1), upd acc.2 i bin)
  else acc

/-- `Histogram::Histogram`: for each masked point, assign its bin and
increment the bin's occupancy (fold in ascending point order, as the
`_Find_first/_Find_next` loop of the source). -/
def Histogram.build (nrBinsPerCoord nrPoints : ℕ) (coords : ℕ → ℤ × ℤ)
    (mask : ℕ → Bool) : Histogram :=
  let r := (List.range nrPoints).foldl (histBuildStep nrBinsPerCoord coords mask)
      (fun _ => 0, fun _ => -1)
  { nrBinsPerCoord := nrBinsPerCoord, nrPoints := nrPoints,
    hist := r.1, bins := r.2 }

/-- One comparison step of `std::max_element`: the iterator advances to a
later element only when its value is strictly greater. -/
def argmaxStep (f : ℤ → ℤ) (acc : ℕ × ℤ) (i : ℕ) : ℕ × ℤ :=
  if acc.2 < f (Int.ofNat i) then (i, f (Int.ofNat i)) else acc

/-- `std::max_element` over a list of indices: first index attaining the
maximal value of `f`, together with that value (`(0, 0)` on an empty list,
where the C++ would dereference the end iterator). -/
def argmaxFirst (f : ℤ → ℤ) : List ℕ → ℕ × ℤ
  | [] => (0, 0)
  | a :: rest => rest.foldl (argmaxStep f) (a, f (Int.ofNat a))

/-- The `std::max_element(hist_.begin(), hist_.end())` of
`getPointsFromMostFrequentBin`: first bin of maximal occupancy, with its
occupancy. -/
def Histogram.mostFrequentBin (h : Histogram) : ℕ × ℤ :=
  argmaxFirst h.hist (List.range (h.nrBinsPerCoord * h.nrBinsPerCoord))

/-- `Histogram::getPointsFromMostFrequentBin`: the ascending list of point
ids assigned to the first most-occupied bin, empty when that bin is empty. -/
def Histogram.getPointsFromMostFrequentBin (h : Histogram) : List ℕ :=
  let m := h.mostFrequentBin
  if 0 < m.2 then
    (List.range h.nrPoints).filter (fun i => decide (h.bins i = (m.1 : ℤ)))
  else []

/-- `Histogram::removePoint`: decrement the point's bin occupancy and mark
the point as removed. -/
def Histogram.removePoint (h : Histogram) (p : ℕ) : Histogram :=
  { h with hist := upd h.hist (h.bins p) (h.hist (h.bins p) - 1),
           bins := upd h.bins p (-1) }

/-! ## Seed selection (`createPlaneSegments`, step 2) -/

/-- One step of the seed-selection loop: a candidate replaces the running
seed only when its MSE is strictly below the running minimum. -/
def selectSeedStep (mse : ℕ → ℚ) (acc : ℕ × ℚ) (c : ℕ) : ℕ × ℚ :=
  if mse c < acc.2 then (c, mse c) else acc

/-- The seed-selection loop: walk the candidate list keeping the first
candidate whose MSE is strictly below the running minimum, starting from
`min_mse = INT_MAX` (the C++ `seed_id` is uninitialized before the first
update; `0` stands for that junk value). -/
def selectSeed (cands : List ℕ) (mse : ℕ → ℚ) : ℕ × ℚ :=
  cands.foldl (selectSeedStep mse) (0, intMaxQ)

/-! ## Region growing (`growSeed`) -/

/-- `PlaneExtractor::growSeed`.  `fuel` models the (unbounded) C++ call
stack; every pipeline invocation supplies enough fuel.  The
`std::out_of_range` throw is modelled by `Except.error`. -/
def growSeedE (Hc Wc : ℕ) (minCos : ℚ) (der : ℕ → Derived) (tols : ℕ → ℚ)
    (unassigned : ℕ → Bool) :
    ℕ → ℕ → ℕ → ℕ → (ℕ → Bool) → Except Unit (ℕ → Bool)
  | 0, _, _, _, amap => Except.ok amap
  | fuel + 1, x, y, prev, amap =>
    let index := x + Wc * y
    if Hc * Wc ≤ index then Except.error () else
    if !unassigned index || amap index then Except.ok amap else
    let d1 := (der prev).d
    let cosAngle := dot3 (der prev).normal (der index).normal
    let mergeDist := sqQ (dot3 (der prev).normal (der index).mean + d1)
    if cosAngle < minCos ∨ tols index < mergeDist then Except.ok amap else
    let am1 := upd amap index true
    (if 0 < x then growSeedE Hc Wc minCos der tols unassigned fuel (x - 1) y index am1
     else Except.ok am1).bind fun am2 =>
    (if x < Wc - 1 then growSeedE Hc Wc minCos der tols unassigned fuel (x + 1) y index am2
     else Except.ok am2).bind fun am3 =>
    (if 0 < y then growSeedE Hc Wc minCos der tols unassigned fuel x (y - 1) index am3
     else Except.ok am3).bind fun am4 =>
    (if y < Hc - 1 then growSeedE Hc Wc minCos der tols unassigned fuel x (y + 1) index am4
     else Except.ok am4)

/-! ## Plane association matrix (`getConnectedComponents`) -/

/-- Set one entry of a boolean matrix to `true`. -/
def updM (m : ℕ → ℕ → Bool) (a b : ℕ) : ℕ → ℕ → Bool :=
  fun i j => if i = a ∧ j = b then true else m i j

/-- One scan position of `getConnectedComponents`: look at the cell
`(r, c)` of the cell-label grid (flattened row-major, `Wc` columns) and
record its right and down neighbor associations. -/
def ccScanStep (Wc : ℕ) (grid : ℕ → ℕ) (m : ℕ → ℕ → Bool) (rc : ℕ × ℕ) :
    ℕ → ℕ → Bool :=
  let planeId := grid (rc.1 * Wc + rc.2)
  if 0 < planeId then
    let right := grid (rc.1 * Wc + (rc.2 + 1))
    let down := grid ((rc.1 + 1) * Wc + rc.2)
    let m1 := if 0 < right ∧ planeId ≠ right then
        updM m (planeId - 1) (right - 1) else m
    if 0 < down ∧ planeId ≠ down then
        updM m1 (planeId - 1) (down - 1) else m1
  else m

/-- The list of scan positions of `getConnectedComponents`: rows
`0 .. rows-2`, columns `0 .. cols-2`, row-major. -/
def ccScanPositions (Hc Wc : ℕ) : List (ℕ × ℕ) :=
  (List.range (Hc - 1)).flatMap (fun r => (List.range (Wc - 1)).map (fun c => (r, c)))

/-- One entry update of the in-place symmetrization loop:
`m[r][c] := m[r][c] || m[c][r]`. -/
def symColStep (r : ℕ) (acc2 : ℕ → ℕ → Bool) (c : ℕ) : ℕ → ℕ → Bool :=
  fun i j => if i = r ∧ j = c then acc2 r c || acc2 c r else acc2 i j

/-- One full row of the in-place symmetrization loop. -/
def symRowStep (K : ℕ) (acc : ℕ → ℕ → Bool) (r : ℕ) : ℕ → ℕ → Bool :=
  (List.range K).foldl (symColStep r) acc

/-- The in-place symmetrization loop of `getConnectedComponents`:
`m[r][c] := m[r][c] || m[c][r]` for all `r, c` below `K`, row-major. -/
def ccSymmetrize (K : ℕ) (m : ℕ → ℕ → Bool) : ℕ → ℕ → Bool :=
  (List.range K).foldl (symRowStep K) m

/-- `PlaneExtractor::getConnectedComponents`: accumulate neighbor
associations over the scan positions, then symmetrize. -/
def getConnectedComponents (K Hc Wc : ℕ) (grid : ℕ → ℕ) : ℕ → ℕ → Bool :=
  ccSymmetrize K ((ccScanPositions Hc Wc).foldl (ccScanStep Wc grid) (fun _ _ => false))

/-- The contribution a scan position `(r, c)` makes to the association
matrix, exactly as `getConnectedComponents` records it: the cell's label
`plane_id` is positive and the entry `(plane_id - 1, right - 1)` or
`(plane_id - 1, down - 1)` is the queried `(a, b)` for a positive neighbor
label different from `plane_id`. -/
def ccContrib (Wc : ℕ) (grid : ℕ → ℕ) (rc : ℕ × ℕ) (a b : ℕ) : Prop :=
  0 < grid (rc.1 * Wc + rc.2) ∧ a = grid (rc.1 * Wc + rc.2) - 1 ∧
  ((0 < grid (rc.1 * Wc + (rc.2 + 1)) ∧
      grid (rc.1 * Wc + rc.2) ≠ grid (rc.1 * Wc + (rc.2 + 1)) ∧
      b = grid (rc.1 * Wc + (rc.2 + 1)) - 1) ∨
   (0 < grid ((rc.1 + 1) * Wc + rc.2) ∧
      grid (rc.1 * Wc + rc.2) ≠ grid ((rc.1 + 1) * Wc + rc.2) ∧
      b = grid ((rc.1 + 1) * Wc + rc.2) - 1))

/-! ## Plane merging (`mergePlanes`) -/

/-- State threaded through the merge loops: merge labels, the (mutated)
plane segment list, the association matrix and the `plane_expanded` flag. -/
structure MergeState (O : Oracle) where
  labels : ℕ → ℕ
  segs : List (Seg O)
  assoc : ℕ → ℕ → Bool
  expanded : Bool

/-- Inner column loop of `mergePlanes` for one `row`: for each associated
`col > row`, merge `col` into `plane_id` when the angle and distance tests
pass, otherwise clear the association entry. -/
def mergeColStep (O : Oracle) (cfg : Config) (dflt : Seg O) (planeId : ℕ)
    (st : MergeState O) (col : ℕ) : MergeState O :=
  if st.assoc planeId col then
    let sp := st.segs.getD planeId dflt
    let sc := st.segs.getD col dflt
    let cosAngle := dot3 sp.der.normal sc.der.normal
    let distance := sqQ (dot3 sp.der.normal sc.der.mean + sp.der.d)
    if cfg.minCosAngleForMerge < cosAngle ∧ distance < cfg.maxMergeDist then
      { st with segs := st.segs.set planeId (Seg.add sp sc),
                labels := upd st.labels col planeId,
                expanded := true }
    else
      { st with assoc := fun i j => if i = planeId ∧ j = col then false else st.assoc i j }
  else st

/-- Outer row loop of `mergePlanes`. -/
def mergeRowStep (O : Oracle) (cfg : Config) (dflt : Seg O) (K : ℕ)
    (st : MergeState O) (row : ℕ) : MergeState O :=
  let planeId := st.labels row
  let st1 := ((List.range K).drop (row + 1)).foldl
      (mergeColStep O cfg dflt planeId) { st with expanded := false }
  if st1.expanded then
    { st1 with segs := st1.segs.set planeId (Seg.calc (st1.segs.getD planeId dflt)) }
  else st1

/-- `PlaneExtractor::mergePlanes`: build the association matrix, run the
asymmetric merge loops, return the merge labels and the mutated segment
list.  The inner loop reads `assoc[row_id]` through the iterator; since a
row's own clears happen at already-visited columns and earlier rows only
clear their own rows, reading the threaded matrix is exact. -/
def mergePlanes (O : Oracle) (cfg : Config) (dflt : Seg O) (Hc Wc : ℕ)
    (segments : List (Seg O)) (grid : ℕ → ℕ) : (ℕ → ℕ) × List (Seg O) :=
  let K := segments.length
  let assoc0 := getConnectedComponents K Hc Wc grid
  let st := (List.range K).foldl (mergeRowStep O cfg dflt K)
      { labels := fun i => i, segs := segments, assoc := assoc0, expanded := false }
  (st.labels, st.segs)

/-! ## Cell organization and planar-cell fitting (`organizeByCell`,
`findPlanarCells`, `initializeHistogram`, `computeCellDistTols`) -/

/-- `PlaneExtractor::organizeByCell`: re-lay the row-major point cloud into
cell-major order.  `stacked_id` runs over pixels in row-major order; each
pixel is written at its cell-major `shift`.  (For margin pixels the C++
writes past the cell region — and, for large patch sizes, past the buffer;
the cell region itself ends up correct because the legitimate cell pixel of
any colliding slot is written later in row-major order.) -/
def organizeByCell (H W P Wc : ℕ) (pcd : List V3) : ℕ → V3 :=
  (List.range (H * W)).foldl
    (fun out i =>
      let r := i / W
      let c := i % W
      let shift := (r / P * Wc + c / P) * (P * P) + r % P * P + c % P
      upd out shift (pcd.getD i (0, 0, 0)))
    (fun _ => (0, 0, 0))

/-- The `P*P` contiguous points of cell `cid` in the cell-major array. -/
def cellPoints (pp : ℕ) (organized : ℕ → V3) (cid : ℕ) : List V3 :=
  (List.range pp).map (fun k => organized (cid * pp + k))

/-- `findPlanarCells`: construct every `CellSegment` of the grid. -/
def cellGridOf (O : Oracle) (pp : ℕ) (organized : ℕ → V3) : ℕ → Seg O :=
  fun cid => mkCell O (cellPoints pp organized cid)

/-- `findPlanarCells`: the planar-cell bitset. -/
def planarFlagsOf (O : Oracle) (N pp : ℕ) (organized : ℕ → V3) : ℕ → Bool :=
  fun cid => decide (cid < N) && O.cellPlanar (cellPoints pp organized cid)

/-- `initializeHistogram`: compute the spherical coordinates of each planar
cell's normal and build the histogram from them (the `Histogram` constructor
re-derives its quantized coordinates from the rows it is given; both float
stages are modelled by the oracle composition `binCoords ∘ sphericalCoords`). -/
def initializeHistogram (O : Oracle) (cfg : Config) (N : ℕ)
    (cellGrid : ℕ → Seg O) (planarFlags : ℕ → Bool) : Histogram :=
  Histogram.build cfg.histogramBinsPerCoord N
    (fun cid => O.binCoords (O.sphericalCoords (cellGrid cid).der.normal))
    planarFlags

/-- `computeCellDistTols`: squared distance tolerance of each planar cell,
from the cell diameter (norm of last-corner minus first-corner point),
`sin` of the merge angle, and the clamp `[min_merge_dist = 20, maxMergeDist]`. -/
def computeCellDistTols (O : Oracle) (cfg : Config) (pp : ℕ)
    (organized : ℕ → V3) (planarFlags : ℕ → Bool) : ℕ → ℚ :=
  let sinAngleForMerge := O.sqrtQ (1 - sqQ cfg.minCosAngleForMerge)
  let minMergeDist : ℚ := 20
  fun cid =>
    if planarFlags cid then
      let pLast := organized (cid * pp + pp - 1)
      let pFirst := organized (cid * pp)
      let dx := pLast.1 - pFirst.1
      let dy := pLast.2.1 - pFirst.2.1
      let dz := pLast.2.2 - pFirst.2.2
      let cellDiameter := O.sqrtQ (sqQ dx + sqQ dy + sqQ dz)
      let truncated := minQ (maxQ (cellDiameter * sinAngleForMerge) minMergeDist)
          cfg.maxMergeDist
      sqQ truncated
    else 0

/-! ## Region growing loop (`createPlaneSegments`) -/

/-- Number of `true` bits below `n` (`std::bitset::count`; the pipeline's
bitsets are only ever set below the total cell count). -/
def countTrue (n : ℕ) (f : ℕ → Bool) : ℕ := ((List.range n).filter f).length

/-- `PlaneExtractor::createPlaneSegments`, the `while` loop.  `fuel` bounds
the iteration count (the C++ loop can only terminate or spin; with the real
float kernels a selected seed always activates itself, so `N + 1` iterations
suffice; a spinning iteration returns the current result when fuel ends).
A `growSeed` error (unreachable from valid seeds) yields an empty
activation map. -/
def createPlaneSegmentsLoop (O : Oracle) (cfg : Config) (Hc Wc : ℕ)
    (cellGrid : ℕ → Seg O) (tols : ℕ → ℚ) :
    ℕ → Histogram → (ℕ → Bool) → ℕ → List (Seg O) → (ℕ → ℕ) →
    List (Seg O) × (ℕ → ℕ)
  | 0, _, _, _, segments, grid => (segments, grid)
  | fuel + 1, hist, unassigned, remaining, segments, grid =>
    let N := Hc * Wc
    if remaining = 0 then (segments, grid) else
    let seedCandidates := hist.getPointsFromMostFrequentBin
    if seedCandidates.length < cfg.minRegionGrowingCandidateSize then
      (segments, grid)
    else
      let seedId := (selectSeed seedCandidates (fun c => (cellGrid c).der.mse)).1
      let y := seedId / Wc
      let x := seedId % Wc
      let activation :=
        match growSeedE Hc Wc cfg.minCosAngleForMerge (fun c => (cellGrid c).der)
            tols unassigned (N + 1) x y seedId (fun _ => false) with
        | Except.ok m => m
        | Except.error _ => fun _ => false
      let newSegment := (List.range N).foldl
          (fun acc i => if activation i then Seg.add acc (cellGrid i) else acc)
          (cellGrid seedId)
      let hist1 := (List.range N).foldl
          (fun (h : Histogram) i => if activation i then h.removePoint i else h) hist
      let nrCellsActivated := countTrue N activation
      let remaining1 := remaining - nrCellsActivated
      let unassigned1 := fun i => unassigned i && !activation i
      if nrCellsActivated < cfg.minRegionGrowingCellsActivated then
        createPlaneSegmentsLoop O cfg Hc Wc cellGrid tols fuel hist1 unassigned1
          remaining1 segments grid
      else
        let newSegment1 := Seg.calc newSegment
        if cfg.minRegionPlanarityScore < newSegment1.der.score then
          let segments1 := segments ++ [newSegment1]
          let label := segments1.length
          let grid1 := fun cid => if activation cid then label else grid cid
          createPlaneSegmentsLoop O cfg Hc Wc cellGrid tols fuel hist1 unassigned1
            remaining1 segments1 grid1
        else
          createPlaneSegmentsLoop O cfg Hc Wc cellGrid tols fuel hist1 unassigned1
            remaining1 segments grid

/-- `PlaneExtractor::createPlaneSegments`: run the loop from the planar
flags, a fresh unassigned mask and the incoming cell-label grid. -/
def createPlaneSegments (O : Oracle) (cfg : Config) (Hc Wc : ℕ)
    (cellGrid : ℕ → Seg O) (planarFlags : ℕ → Bool) (tols : ℕ → ℚ)
    (hist : Histogram) (grid0 : ℕ → ℕ) : List (Seg O) × (ℕ → ℕ) :=
  let N := Hc * Wc
  createPlaneSegmentsLoop O cfg Hc Wc cellGrid tols (N + 1) hist planarFlags
    (countTrue N planarFlags) [] grid0

/-! ## Refinement (`refinePlanes`, `refineCells`) and label writing -/

/-- `cv::erode` with the 3x3 cross kernel on a binary cell mask
(flattened `Hc x Wc`): minimum of the mask over the in-grid part of the
kernel support, written with one guarded read per kernel position (the
constant-border default of `cv::erode` is the type maximum, so out-of-grid
positions do not constrain the minimum). -/
def erodeAt (Hc Wc : ℕ) (m : ℕ → ℕ) (cid : ℕ) : ℕ :=
  let r := cid / Wc
  let c := cid % Wc
  let v0 := if r < Hc ∧ c < Wc then m cid else 255
  let v1 := if 0 < r ∧ r - 1 < Hc ∧ c < Wc then m ((r - 1) * Wc + c) else 255
  let v2 := if r + 1 < Hc ∧ c < Wc then m ((r + 1) * Wc + c) else 255
  let v3 := if r < Hc ∧ 0 < c ∧ c - 1 < Wc then m (r * Wc + (c - 1)) else 255
  let v4 := if r < Hc ∧ c + 1 < Wc then m (r * Wc + (c + 1)) else 255
  Nat.min v0 (Nat.min v1 (Nat.min v2 (Nat.min v3 v4)))

/-- `cv::dilate` with the 3x3 all-ones kernel on a binary cell mask:
maximum of the mask over the in-grid part of the kernel support. -/
def dilateAt (Hc Wc : ℕ) (m : ℕ → ℕ) (cid : ℕ) : ℕ :=
  let r := cid / Wc
  let c := cid % Wc
  let u0 := if 0 < r ∧ r - 1 < Hc ∧ 0 < c ∧ c - 1 < Wc then m ((r - 1) * Wc + (c - 1)) else 0
  let u1 := if 0 < r ∧ r - 1 < Hc ∧ c < Wc then m ((r - 1) * Wc + c) else 0
  let u2 := if 0 < r ∧ r - 1 < Hc ∧ c + 1 < Wc then m ((r - 1) * Wc + (c + 1)) else 0
  let u3 := if r < Hc ∧ 0 < c ∧ c - 1 < Wc then m (r * Wc + (c - 1)) else 0
  let u4 := if r < Hc ∧ c < Wc then m cid else 0
  let u5 := if r < Hc ∧ c + 1 < Wc then m (r * Wc + (c + 1)) else 0
  let u6 := if r + 1 < Hc ∧ 0 < c ∧ c - 1 < Wc then m ((r + 1) * Wc + (c - 1)) else 0
  let u7 := if r + 1 < Hc ∧ c < Wc then m ((r + 1) * Wc + c) else 0
  let u8 := if r + 1 < Hc ∧ c + 1 < Wc then m ((r + 1) * Wc + (c + 1)) else 0
  Nat.max u0 (Nat.max u1 (Nat.max u2 (Nat.max u3 (Nat.max u4
    (Nat.max u5 (Nat.max u6 (Nat.max u7 u8)))))))

/-- The mask accumulation of `refinePlanes` for merge root `i`:
`mask.setTo(1, grid_plane_seg_map_ == j + 1)` for every `j ≥ i` whose merge
label equals `labels[i]`. -/
def refineMask (K : ℕ) (labels : ℕ → ℕ) (grid : ℕ → ℕ) (i : ℕ) : ℕ → ℕ :=
  ((List.range K).drop i).foldl
    (fun m j =>
      if labels j = labels i then fun cid => if grid cid = j + 1 then 1 else m cid
      else m)
    (fun _ => 0)

/-- One point of the per-pixel write loop of `refineCells`: gate the
squared residual against `max_dist` and the running per-pixel distance,
updating the distance and label buffers on success. -/
def refinePixelStep (pp : ℕ) (organized : ℕ → V3) (plane : Derived)
    (label : ℕ) (maxDist : ℚ) (cid : ℕ) (acc : (ℕ → ℚ) × (ℕ → ℕ)) (j : ℕ) :
    (ℕ → ℚ) × (ℕ → ℕ) :=
  let pt := cid * pp + j
  let dist := sqQ (dot3 plane.normal (organized pt) + plane.d)
  if dist < maxDist ∧ dist < acc.1 pt then
    (upd acc.1 pt dist, upd acc.2 pt label)
  else acc

/-- The per-pixel write loop of `refineCells` for one boundary cell. -/
def refineCellPixels (pp : ℕ) (organized : ℕ → V3) (plane : Derived)
    (label : ℕ) (maxDist : ℚ) (cid : ℕ) (st : (ℕ → ℚ) × (ℕ → ℕ)) :
    (ℕ → ℚ) × (ℕ → ℕ) :=
  (List.range pp).foldl (refinePixelStep pp organized plane label maxDist cid) st

/-- One cell of the `refineCells` walk: skip cells outside the boundary
mask, otherwise run the per-pixel writes. -/
def refineCellStep (pp : ℕ) (organized : ℕ → V3) (plane : Derived)
    (label : ℕ) (maxDist : ℚ) (mask : ℕ → ℕ) (st : (ℕ → ℚ) × (ℕ → ℕ))
    (cid : ℕ) : (ℕ → ℚ) × (ℕ → ℕ) :=
  if mask cid = 0 then st
  else refineCellPixels pp organized plane label maxDist cid st

/-- `PlaneExtractor::refineCells`: walk the cell grid, and for every cell
set in the boundary mask run the per-pixel writes.  The per-pixel distance
buffer `distances_stacked` is local to this call, freshly initialized to
`MAXFLOAT` (so the running-distance gate only compares residuals of the
plane of this call). -/
def refineCells (N pp : ℕ) (organized : ℕ → V3) (plane : Derived)
    (label : ℕ) (refinementCoeff : ℚ) (mask : ℕ → ℕ) (seg : ℕ → ℕ) : ℕ → ℕ :=
  let maxDist := refinementCoeff * plane.mse
  ((List.range N).foldl (refineCellStep pp organized plane label maxDist mask)
    (fun _ => maxFloatQ, seg)).2

/-- One iteration of `refinePlanes` (merge root `i`): build the cell mask,
erode (drop the plane when fully eroded), assign the next final label,
stamp the eroded mask into the eroded label grid, and refine the pixels of
the dilated-minus-eroded boundary cells.  The state is
`(plane_segments_final.size(), grid_plane_seg_map_eroded_, seg_map_stacked_)`
(only the size of the final segment list is ever read downstream). -/
def refinePlaneStep (O : Oracle) (cfg : Config) (Hc Wc pp : ℕ)
    (organized : ℕ → V3) (dflt : Seg O) (segments : List (Seg O)) (K : ℕ)
    (labels : ℕ → ℕ) (grid : ℕ → ℕ) (st : ℕ × (ℕ → ℕ) × (ℕ → ℕ)) (i : ℕ) :
    ℕ × (ℕ → ℕ) × (ℕ → ℕ) :=
  let N := Hc * Wc
  if i ≠ labels i then st else
  let mask := refineMask K labels grid i
  let maskEroded := fun cid => erodeAt Hc Wc mask cid
  if (List.range N).all (fun cid => maskEroded cid = 0) then st else
  let cnt := st.1 + 1
  let maskDilated := fun cid => dilateAt Hc Wc mask cid
  let maskDiff := fun cid => maskDilated cid - maskEroded cid
  let eroded1 := fun cid => if 0 < maskEroded cid then cnt else st.2.1 cid
  let seg1 := refineCells N pp organized (segments.getD i dflt).der cnt
      cfg.refinementMultiplierCoeff maskDiff st.2.2
  (cnt, eroded1, seg1)

/-- `PlaneExtractor::refinePlanes`: fold the per-plane refinement step over
all segment indices, starting from the incoming eroded label grid and
stacked per-pixel segment buffer. -/
def refinePlanes (O : Oracle) (cfg : Config) (Hc Wc pp : ℕ)
    (organized : ℕ → V3) (dflt : Seg O) (segments : List (Seg O))
    (labels : ℕ → ℕ) (grid : ℕ → ℕ) (eroded0 seg0 : ℕ → ℕ) :
    ℕ × (ℕ → ℕ) × (ℕ → ℕ) :=
  (List.range segments.length).foldl
    (refinePlaneStep O cfg Hc Wc pp organized dflt segments segments.length
      labels grid)
    (0, eroded0, seg0)

/-! ## Label writing (`toLabels`, `coarseToLabels`) -/

/-- `seg_out(cv::Rect(c_offset, r_offset, P, P)).setTo(v)`: bulk assignment
of a `P x P` pixel block of the row-major `H x W` label image. -/
def blockSetTo (W P rOffset cOffset v : ℕ) (out : ℕ → ℕ) : ℕ → ℕ :=
  fun q =>
    if ∃ rl < P, ∃ cl < P, q = (rOffset + rl) * W + (cOffset + cl) then v
    else out q

/-- The pixel-by-pixel branch of `toLabels` for one cell: copy positive
entries of the stacked per-pixel segment buffer (indexed cell-major) into
the label image. -/
def cellPixelFill (W P rOffset cOffset base : ℕ) (seg : ℕ → ℕ)
    (out : ℕ → ℕ) : ℕ → ℕ :=
  (List.range P).foldl
    (fun acc rl =>
      (List.range P).foldl
        (fun acc2 cl =>
          let idx := base + rl * P + cl
          if 0 < seg idx then upd acc2 ((rOffset + rl) * W + (cOffset + cl)) (seg idx)
          else acc2)
        acc)
    out

/-- `PlaneExtractor::toLabels`: start from an all-zero `H x W` label image;
for each cell either stamp the eroded-grid value over the whole block or
fill pixel-by-pixel from the stacked segment buffer. -/
def toLabels (Hc Wc P W pp : ℕ) (eroded : ℕ → ℕ) (seg : ℕ → ℕ) : ℕ → ℕ :=
  (List.range Hc).foldl
    (fun out cellR =>
      (List.range Wc).foldl
        (fun out2 cellC =>
          let rOffset := cellR * P
          let cOffset := cellC * P
          if 0 < eroded (cellR * Wc + cellC) then
            blockSetTo W P rOffset cOffset (eroded (cellR * Wc + cellC)) out2
          else
            cellPixelFill W P rOffset cOffset
              (pp * cellR * Wc + pp * cellC) seg out2)
        out)
    (fun _ => 0)

/-- `PlaneExtractor::coarseToLabels`: copy the cell-label grid and, for each
segment index `i` with `labels[i] != i`, replace occurrences of the value
`i` by `labels[i]`. -/
def coarseToLabels (K : ℕ) (labels : ℕ → ℕ) (grid : ℕ → ℕ) : ℕ → ℕ :=
  (List.range K).foldl
    (fun g i =>
      if labels i ≠ i then fun cid => if g cid = i then labels i else g cid
      else g)
    grid

/-! ## The pipeline object (`PlaneExtractor::process`, `cleanArtifacts`) -/

/-- The per-frame state owned by a `PlaneExtractor` instance: the cell-label
grid, the eroded cell-label grid, the stacked per-pixel segment buffer and
the cell grid of `CellSegment` handles (`nullptr` modelled as `none`). -/
structure State (O : Oracle) where
  grid : ℕ → ℕ
  eroded : ℕ → ℕ
  seg : ℕ → ℕ
  cellGrid : ℕ → Option (Seg O)

/-- The freshly-constructed state: all grids and buffers zero, all cell
handles null. -/
def initState (O : Oracle) : State O :=
  { grid := fun _ => 0, eroded := fun _ => 0, seg := fun _ => 0,
    cellGrid := fun _ => none }

/-- The body of `process` as a function of the three state buffers it
actually reads (`grid_plane_seg_map_`, `grid_plane_seg_map_eroded_`,
`seg_map_stacked_`; the incoming `cell_grid_` entries are overwritten by
`findPlanarCells` before any read).  Returns the flattened label image and
the stacked segment buffer as it is left by the call. -/
def processFrom (O : Oracle) (cfg : Config) (H W : ℕ)
    (grid0 eroded0 seg0 : ℕ → ℕ) (pcd : List V3) : List ℕ × (ℕ → ℕ) :=
  let P := cfg.patchSize
  let Wc := W / P
  let Hc := H / P
  let N := Hc * Wc
  let pp := P * P
  let organized := organizeByCell H W P Wc pcd
  let cellGrid := cellGridOf O pp organized
  let planarFlags := planarFlagsOf O N pp organized
  let hist := initializeHistogram O cfg N cellGrid planarFlags
  let tols := computeCellDistTols O cfg pp organized planarFlags
  let sg := createPlaneSegments O cfg Hc Wc cellGrid planarFlags tols hist grid0
  let dflt := mkCell O []
  let ms := mergePlanes O cfg dflt Hc Wc sg.1 sg.2
  if cfg.doRefinement then
    let r := refinePlanes O cfg Hc Wc pp organized dflt ms.2 ms.1 sg.2 eroded0 seg0
    ((List.range (H * W)).map (toLabels Hc Wc P W pp r.2.1 r.2.2), r.2.2)
  else
    ((List.range N).map (coarseToLabels ms.2.length ms.1 sg.2), seg0)

/-- `PlaneExtractor::process` followed by `cleanArtifacts`: run the pipeline
from the instance state, then reset for the next frame.  `cleanArtifacts`
assigns `0` to both label grids; its `resize` calls on `cell_grid_` and
`seg_map_stacked_` keep the existing size and therefore leave their
contents unchanged. -/
def process (O : Oracle) (cfg : Config) (H W : ℕ) (st : State O)
    (pcd : List V3) : List ℕ × State O :=
  let P := cfg.patchSize
  let pp := P * P
  let organized := organizeByCell H W P (W / P) pcd
  let r := processFrom O cfg H W st.grid st.eroded st.seg pcd
  (r.1,
   { grid := fun _ => 0, eroded := fun _ => 0, seg := r.2,
     cellGrid := fun cid => if cid < H / P * (W / P) then
        some (cellGridOf O pp organized cid) else st.cellGrid cid })

/-! ## Concrete instances used by counterexamples and witnesses -/

/-- A concrete oracle with trivial sums: every cell has normal `(0,0,1)`,
mean `(0,0,10)`, offset `-10`, MSE `1`, score `1`; a cell is planar iff the
`z` of its first point is below `50`; all float transcendentals return `0`. -/
def unitOracle : Oracle where
  Sums := Unit
  addSums _ _ := ()
  cellSums _ := ()
  derive _ := { normal := (0, 0, 1), mean := (0, 0, 10), d := -10, mse := 1, score := 1 }
  cellPlanar pts := decide ((pts.getD 0 (0, 0, 0)).2.2 < 50)
  sqrtQ _ := 0
  sphericalCoords _ := (0, 0, 0)
  binCoords _ := (0, 0)

/-- A concrete configuration: unit patches, one histogram bin, permissive
region-growing thresholds, refinement enabled with coefficient 15. -/
def cfgDemo : Config :=
  { patchSize := 1, histogramBinsPerCoord := 1, minCosAngleForMerge := 9/10,
    maxMergeDist := 500, minRegionGrowingCandidateSize := 1,
    minRegionGrowingCellsActivated := 1, minRegionPlanarityScore := -1,
    doRefinement := true, refinementMultiplierCoeff := 15 }

/-- `cfgDemo` with refinement disabled. -/
def cfgCoarse : Config := { cfgDemo with doRefinement := false }

/-- Plane segment `z = 10` (normal `(0,0,1)`, offset `-10`, MSE `1`). -/
def segA : Seg unitOracle :=
  { sums := (),
    der := { normal := (0, 0, 1), mean := (0, 0, 11), d := -10, mse := 1, score := 60 } }

/-- Plane segment `z = 13` (normal `(0,0,1)`, offset `-13`, MSE `1`). -/
def segB : Seg unitOracle :=
  { sums := (),
    der := { normal := (0, 0, 1), mean := (0, 0, 13), d := -13, mse := 1, score := 60 } }

/-- Four cell-major points of a `4 x 1`-cell frame with `patchSize 1`:
`z = 10, 11, 12, 13`. -/
def orgTwoPlanes : ℕ → V3 :=
  fun i => ([(0, 0, 10), (0, 0, 11), (0, 0, 12), (0, 0, 13)] : List V3).getD i (0, 0, 0)

/-- Cell-label grid of the `4 x 1` frame: cells 0-1 belong to plane segment
index 0 (label 1), cells 2-3 to plane segment index 1 (label 2). -/
def gridTwoPlanes : ℕ → ℕ := fun i => ([1, 1, 2, 2] : List ℕ).getD i 0

/-- `refinePlanes` on the two-plane `4 x 1` frame with identity merge
labels: both planes survive erosion (final labels 1 and 2) and their
dilated-minus-eroded boundary masks both cover cells 1 and 2. -/
def refineTwoPlanes : ℕ × (ℕ → ℕ) × (ℕ → ℕ) :=
  refinePlanes unitOracle cfgDemo 4 1 1 orgTwoPlanes (mkCell unitOracle [])
    [segA, segB] (fun i => i) gridTwoPlanes (fun _ => 0) (fun _ => 0)


/-- A concrete histogram: one bin per coordinate, two points, both masked
into bin 0. -/
def histDemo : Histogram := Histogram.build 1 2 (fun _ => (0, 0)) (fun _ => true)

/-- Number of points below `n` that are masked, still remaining (`rem`) and
assigned to bin `b`: the exact occupancy the histogram invariant predicts. -/
def binCount (B : ℕ) (coords : ℕ → ℤ × ℤ) (mask rem : ℕ → Bool) (n : ℕ)
    (b : ℤ) : ℤ :=
  (((List.range n).filter
      (fun i => mask i && rem i && decide (binOfCoords B (coords i) = b))).length : ℤ)

/-- The histogram invariant relative to a remaining-points predicate `rem`:
`bins` holds the bin id of the masked remaining points and `-1` elsewhere,
and `hist` holds the exact per-bin occupancy of the masked remaining
points. -/
def HistInv (B n : ℕ) (coords : ℕ → ℤ × ℤ) (mask rem : ℕ → Bool)
    (hg : Histogram) : Prop :=
  (∀ i, i < n →
    hg.bins i = if mask i && rem i then binOfCoords B (coords i) else -1) ∧
  ∀ b, hg.hist b = binCount B coords mask rem n b

/-- Stability of a buffer transformation relative to a pair of input
buffers: at every index the two results either agree (the index was
written, with a value independent of the input buffer) or both pass their
input through. -/
def SegStab (s s1 f f1 : ℕ → ℕ) : Prop :=
  ∀ t, f t = f1 t ∨ (f t = s t ∧ f1 t = s1 t)

/-! ## Claims refuted by concrete computation -/

/-- Claim C1.  The claim says the per-pixel distance buffer is maintained
across all planes of the frame so that among gated claiming planes the one
with the smallest squared residual wins.  In the code `distances_stacked`
is a local of `refineCells`, re-initialized to `MAXFLOAT` for every plane,
so the last-processed gated plane wins instead: at pixel 1 of the concrete
two-plane frame, plane 1's residual is `1` and plane 2's residual is `4`,
both pass their gates (`< 15 * MSE = 15`), yet the final stacked segment
map assigns pixel 1 to plane 2. -/
theorem refinePlanes_larger_residual_overwrites :
    sqQ (dot3 segA.der.normal (orgTwoPlanes 1) + segA.der.d) = 1 ∧
    sqQ (dot3 segB.der.normal (orgTwoPlanes 1) + segB.der.d) = 4 ∧
    (1 : ℚ) < cfgDemo.refinementMultiplierCoeff * segA.der.mse ∧
    (4 : ℚ) < cfgDemo.refinementMultiplierCoeff * segB.der.mse ∧
    refineTwoPlanes.2.2 1 = 2 := by
  refine ⟨by decide, by decide, by decide, by decide, by decide⟩

/-- Claim C3.  The claim says that with refinement disabled the emitted
per-cell label image substitutes merged labels, so merged duplicate
segments share the root's id.  `coarseToLabels` compares the grid (which
holds 1-based labels `i + 1`) against the 0-based index `i`: with two
segments and merge labels `[0, 0]`, the cells of merged segment index 1
(stamped `2`) keep the value `2` instead of the root's id `1`, and the
root's own cells (stamped `1`) are clobbered to `0`. -/
theorem coarseToLabels_merge_substitution_mismatch :
    (fun i => ([0, 0] : List ℕ).getD i 0) 1 = 0 ∧
    gridTwoPlanes 2 = 2 ∧
    coarseToLabels 2 (fun i => ([0, 0] : List ℕ).getD i 0) gridTwoPlanes 2 = 2 ∧
    coarseToLabels 2 (fun i => ([0, 0] : List ℕ).getD i 0) gridTwoPlanes 0 = 0 := by
  exact ⟨rfl, rfl, by decide, by decide⟩

/-- Claim C4, counterexample.  The claim says the association matrix
relates every pair of distinct positive labels that are 4-adjacent in the
cell-label grid.  The scan loops run only over rows `0 .. rows-2` and
columns `0 .. cols-2`: on the `2 x 2` grid `[[0, 0], [1, 2]]` the cells
labelled 1 and 2 are horizontally adjacent in the last row, yet neither
association entry is set. -/
theorem getConnectedComponents_misses_last_row_adjacency :
    (fun i => ([0, 0, 1, 2] : List ℕ).getD i 0) (1 * 2 + 0) = 1 ∧
    (fun i => ([0, 0, 1, 2] : List ℕ).getD i 0) (1 * 2 + 1) = 2 ∧
    getConnectedComponents 2 2 2 (fun i => ([0, 0, 1, 2] : List ℕ).getD i 0) 0 1 = false ∧
    getConnectedComponents 2 2 2 (fun i => ([0, 0, 1, 2] : List ℕ).getD i 0) 1 0 = false := by
  exact ⟨rfl, rfl, by decide, by decide⟩

/-- Claim C5.  The claim says `process` surfaces a DimensionMismatch error
before any pipeline work whenever the input row count differs from `H * W`
(or the column count from 3).  The `process` of the source performs no
dimension check at all: on a 2-row input for a `1 x 1` image it runs the
whole pipeline (reading out of the input's bounds in `organizeByCell`) and
returns an ordinary label image. -/
theorem process_no_dimension_check :
    ([(0, 0, 10), (0, 0, 11)] : List V3).length ≠ 1 * 1 ∧
    (process unitOracle cfgCoarse 1 1 (initState unitOracle)
      [(0, 0, 10), (0, 0, 11)]).1 = [1] := by
  exact ⟨by decide, by decide⟩

/-! ## Margin lemmas for `toLabels` -/

/-- `r * W + c < H * W` for an in-range pixel `(r, c)`. -/
theorem rowcol_lt {W H r c : ℕ} (hr : r < H) (hc : c < W) :
    r * W + c < H * W := by
  have h1 : r * W + c < r * W + W := Nat.add_lt_add_left hc _
  have h2 : r * W + W = (r + 1) * W := (Nat.succ_mul r W).symm
  exact Nat.lt_of_lt_of_le (h2 ▸ h1) (Nat.mul_le_mul_right W hr)

/-- The linear cell index `x + W_cells * y` of in-range coordinates is
below the total cell count. -/
theorem idx_not_le {Wc Hc x y : ℕ} (hx : x < Wc) (hy : y < Hc) :
    ¬(Hc * Wc ≤ x + Wc * y) := by
  apply Nat.not_le.mpr
  have h1 : x + Wc * y < Wc + Wc * y := Nat.add_lt_add_right hx _
  have h2 : Wc + Wc * y = Wc * (y + 1) := by
    rw [Nat.mul_succ]; exact Nat.add_comm Wc (Wc * y)
  have h3 : Wc * (y + 1) ≤ Wc * Hc := Nat.mul_le_mul_left Wc hy
  rw [Nat.mul_comm Hc Wc]
  exact Nat.lt_of_lt_of_le (h2 ▸ h1) h3

theorem rowcol_eq {W a b r c : ℕ} (hb : b < W) (hc : c < W)
    (h : a * W + b = r * W + c) : a = r ∧ b = c := by
  have hW : 0 < W := Nat.lt_of_le_of_lt (Nat.zero_le b) hb
  have h' : b + a * W = c + r * W := by
    rw [Nat.add_comm b, Nat.add_comm c]; exact h
  have hdiv : (b + a * W) / W = (c + r * W) / W := congrArg (· / W) h'
  rw [Nat.add_mul_div_right b a hW, Nat.add_mul_div_right c r hW,
    Nat.div_eq_of_lt hb, Nat.div_eq_of_lt hc, Nat.zero_add, Nat.zero_add] at hdiv
  have hmod : (b + a * W) % W = (c + r * W) % W := congrArg (· % W) h'
  rw [Nat.add_mul_mod_self_right, Nat.add_mul_mod_self_right,
    Nat.mod_eq_of_lt hb, Nat.mod_eq_of_lt hc] at hmod
  exact ⟨hdiv, hmod⟩

theorem foldl_preserve_at {α : Type} (step : (ℕ → ℕ) → α → (ℕ → ℕ)) (p : ℕ)
    (l : List α) (h : ∀ f a, a ∈ l → step f a p = f p) :
    ∀ out, (l.foldl step out) p = out p := by
  induction l with
  | nil => intro out; rfl
  | cons a t ih =>
    intro out
    rw [List.foldl_cons]
    rw [ih (fun f b hb => h f b (List.mem_cons_of_mem a hb))]
    exact h out a (List.mem_cons_self a t)

/-- Every position written inside the cell block `(cellR, cellC)` lies
strictly inside the covered pixel region, hence differs from the margin
pixel `r * W + c`. -/
theorem cell_write_ne_margin {Hc Wc P W : ℕ} {cellR cellC rl cl r c : ℕ}
    (hR : cellR < Hc) (hC : cellC < Wc) (hrl : rl < P) (hcl : cl < P)
    (hWcP : Wc * P ≤ W) (hc : c < W)
    (hm : Hc * P ≤ r ∨ Wc * P ≤ c) :
    (cellR * P + rl) * W + (cellC * P + cl) ≠ r * W + c := by
  intro heq
  have hrow : cellR * P + rl < Hc * P := by
    have h1 : cellR * P + rl < (cellR + 1) * P := by
      rw [Nat.succ_mul]; exact Nat.add_lt_add_left hrl _
    exact Nat.lt_of_lt_of_le h1 (Nat.mul_le_mul_right P hR)
  have hcol : cellC * P + cl < Wc * P := by
    have h1 : cellC * P + cl < (cellC + 1) * P := by
      rw [Nat.succ_mul]; exact Nat.add_lt_add_left hcl _
    exact Nat.lt_of_lt_of_le h1 (Nat.mul_le_mul_right P hC)
  have hcol2 : cellC * P + cl < W := lt_of_lt_of_le hcol hWcP
  obtain ⟨he1, he2⟩ := rowcol_eq hcol2 hc heq
  rcases hm with hm | hm
  · rw [he1] at hrow
    exact Nat.lt_irrefl r (Nat.lt_of_lt_of_le hrow hm)
  · rw [he2] at hcol
    exact Nat.lt_irrefl c (Nat.lt_of_lt_of_le hcol hm)

theorem blockSetTo_margin {Hc Wc P W : ℕ} {cellR cellC r c v : ℕ} (out : ℕ → ℕ)
    (hR : cellR < Hc) (hC : cellC < Wc) (hWcP : Wc * P ≤ W) (hc : c < W)
    (hm : Hc * P ≤ r ∨ Wc * P ≤ c) :
    blockSetTo W P (cellR * P) (cellC * P) v out (r * W + c) = out (r * W + c) := by
  unfold blockSetTo
  rw [if_neg]
  rintro ⟨rl, hrl, cl, hcl, heq⟩
  exact cell_write_ne_margin hR hC hrl hcl hWcP hc hm heq.symm

theorem cellPixelFill_margin {Hc Wc P W : ℕ} {cellR cellC r c base : ℕ}
    (seg : ℕ → ℕ) (out : ℕ → ℕ)
    (hR : cellR < Hc) (hC : cellC < Wc) (hWcP : Wc * P ≤ W) (hc : c < W)
    (hm : Hc * P ≤ r ∨ Wc * P ≤ c) :
    cellPixelFill W P (cellR * P) (cellC * P) base seg out (r * W + c)
      = out (r * W + c) := by
  unfold cellPixelFill
  refine foldl_preserve_at _ _ _ (fun f rl hrl => ?_) out
  have hrl2 : rl < P := List.mem_range.mp hrl
  refine foldl_preserve_at _ _ _ (fun f2 cl hcl => ?_) f
  have hcl2 : cl < P := List.mem_range.mp hcl
  by_cases hpos : 0 < seg (base + rl * P + cl)
  · rw [if_pos hpos]
    unfold upd
    rw [if_neg]
    exact fun heq => cell_write_ne_margin hR hC hrl2 hcl2 hWcP hc hm heq.symm
  · rw [if_neg hpos]

/-- `toLabels` never writes a pixel of the right/bottom margin: for every
pixel `(r, c)` with `r ≥ H_cells * P` or `c ≥ W_cells * P`, the produced
label image is `0` there. -/
theorem toLabels_margin (Hc Wc P W pp : ℕ) (eroded seg : ℕ → ℕ) (r c : ℕ)
    (hWcP : Wc * P ≤ W) (hc : c < W) (hm : Hc * P ≤ r ∨ Wc * P ≤ c) :
    toLabels Hc Wc P W pp eroded seg (r * W + c) = 0 := by
  unfold toLabels
  refine foldl_preserve_at _ _ _ (fun f cellR hcellR => ?_) (fun _ => 0)
  have hR : cellR < Hc := List.mem_range.mp hcellR
  refine foldl_preserve_at _ _ _ (fun f2 cellC hcellC => ?_) f
  have hC : cellC < Wc := List.mem_range.mp hcellC
  by_cases hE : 0 < eroded (cellR * Wc + cellC)
  · rw [if_pos hE]
    exact blockSetTo_margin f2 hR hC hWcP hc hm
  · rw [if_neg hE]
    exact cellPixelFill_margin seg f2 hR hC hWcP hc hm

theorem getD_map_range {n i : ℕ} (f : ℕ → ℕ) (h : i < n) :
    ((List.range n).map f).getD i 0 = f i := by
  rw [List.getD_eq_getElem?_getD, List.getElem?_map, List.getElem?_range h]
  rfl

/-! ## Lemmas on seed selection -/

theorem argmaxFirst_go (f : ℤ → ℤ) :
    ∀ (rest : List ℕ) (acc : ℕ × ℤ),
      acc.2 ≤ (rest.foldl (argmaxStep f) acc).2 ∧
      ∀ i ∈ rest, f (Int.ofNat i) ≤ (rest.foldl (argmaxStep f) acc).2 := by
  intro rest
  induction rest with
  | nil => intro acc; exact ⟨le_refl _, by simp⟩
  | cons x xs ih =>
    intro acc
    rw [List.foldl_cons]
    obtain ⟨ih1, ih2⟩ := ih (argmaxStep f acc x)
    have hstep : acc.2 ≤ (argmaxStep f acc x).2 ∧
        f (Int.ofNat x) ≤ (argmaxStep f acc x).2 := by
      unfold argmaxStep
      by_cases hx : acc.2 < f (Int.ofNat x)
      · rw [if_pos hx]; exact ⟨le_of_lt hx, le_refl _⟩
      · rw [if_neg hx]; exact ⟨le_refl _, le_of_not_lt hx⟩
    refine ⟨le_trans hstep.1 ih1, ?_⟩
    intro i hi
    rcases List.mem_cons.mp hi with h1 | h1
    · subst h1; exact le_trans hstep.2 ih1
    · exact ih2 i h1

/-- `std::max_element` returns a maximal value: every listed bin's
occupancy is at most the returned occupancy. -/
theorem argmaxFirst_ge (f : ℤ → ℤ) (l : List ℕ) :
    ∀ i ∈ l, f (Int.ofNat i) ≤ (argmaxFirst f l).2 := by
  cases l with
  | nil => simp
  | cons a rest =>
    intro i hi
    obtain ⟨h1, h2⟩ := argmaxFirst_go f rest (a, f (Int.ofNat a))
    rcases List.mem_cons.mp hi with hh | hh
    · subst hh; exact h1
    · exact h2 i hh

/-- The seed-selection fold either keeps its accumulator (when no element
beats the running minimum) or returns the first element attaining the
minimum MSE: the list splits around the result, everything before it has
strictly larger MSE, and everything has MSE at least the result's. -/
theorem selectSeed_go (mse : ℕ → ℚ) :
    ∀ (l : List ℕ) (a : ℕ) (m : ℚ),
      (l.foldl (selectSeedStep mse) (a, m) = (a, m) ∧ ∀ i ∈ l, m ≤ mse i) ∨
      (∃ l1 l2, l = l1 ++ (l.foldl (selectSeedStep mse) (a, m)).1 :: l2 ∧
        (l.foldl (selectSeedStep mse) (a, m)).2
          = mse (l.foldl (selectSeedStep mse) (a, m)).1 ∧
        (l.foldl (selectSeedStep mse) (a, m)).2 < m ∧
        (∀ i ∈ l1, (l.foldl (selectSeedStep mse) (a, m)).2 < mse i) ∧
        (∀ i ∈ l, (l.foldl (selectSeedStep mse) (a, m)).2 ≤ mse i)) := by
  intro l
  induction l with
  | nil => intro a m; exact Or.inl ⟨rfl, by simp⟩
  | cons x xs ih =>
    intro a m
    by_cases hx : mse x < m
    · have hstep : (x :: xs).foldl (selectSeedStep mse) (a, m)
          = xs.foldl (selectSeedStep mse) (x, mse x) := by
        rw [List.foldl_cons]; unfold selectSeedStep; rw [if_pos hx]
      rw [hstep]
      rcases ih x (mse x) with ⟨heq, hall⟩ | ⟨l1, l2, hsplit, hr2, hlt, hl1, hall⟩
      · refine Or.inr ⟨[], xs, ?_, ?_, ?_, ?_, ?_⟩
        · rw [heq]; rfl
        · rw [heq]
        · rw [heq]; exact hx
        · simp
        · intro i hi
          rw [heq]
          rcases List.mem_cons.mp hi with hh | hh
          · subst hh; exact le_refl _
          · exact hall i hh
      · refine Or.inr ⟨x :: l1, l2, ?_, hr2, ?_, ?_, ?_⟩
        · rw [List.cons_append, ← hsplit]
        · exact lt_trans hlt hx
        · intro i hi
          rcases List.mem_cons.mp hi with hh | hh
          · subst hh; exact hlt
          · exact hl1 i hh
        · intro i hi
          rcases List.mem_cons.mp hi with hh | hh
          · subst hh; exact le_of_lt hlt
          · exact hall i hh
    · have hstep : (x :: xs).foldl (selectSeedStep mse) (a, m)
          = xs.foldl (selectSeedStep mse) (a, m) := by
        rw [List.foldl_cons]; unfold selectSeedStep; rw [if_neg hx]
      rw [hstep]
      rcases ih a m with ⟨heq, hall⟩ | ⟨l1, l2, hsplit, hr2, hlt, hl1, hall⟩
      · refine Or.inl ⟨heq, ?_⟩
        intro i hi
        rcases List.mem_cons.mp hi with hh | hh
        · subst hh; exact le_of_not_lt hx
        · exact hall i hh
      · refine Or.inr ⟨x :: l1, l2, ?_, hr2, hlt, ?_, ?_⟩
        · rw [List.cons_append, ← hsplit]
        · intro i hi
          rcases List.mem_cons.mp hi with hh | hh
          · subst hh; exact lt_of_lt_of_le hlt (le_of_not_lt hx)
          · exact hl1 i hh
        · intro i hi
          rcases List.mem_cons.mp hi with hh | hh
          · subst hh; exact le_trans (le_of_lt hlt) (le_of_not_lt hx)
          · exact hall i hh

/-- The candidate list is exactly the ascending enumeration of the points
assigned to the first most-occupied bin (nonempty only when that bin has
positive occupancy). -/
theorem getPoints_mem (h : Histogram) (i : ℕ) :
    i ∈ h.getPointsFromMostFrequentBin ↔
      (0 < h.mostFrequentBin.2 ∧ i < h.nrPoints ∧
        h.bins i = (h.mostFrequentBin.1 : ℤ)) := by
  unfold Histogram.getPointsFromMostFrequentBin
  by_cases hm : 0 < h.mostFrequentBin.2
  · rw [if_pos hm]
    simp only [List.mem_filter, List.mem_range, decide_eq_true_eq]
    tauto
  · rw [if_neg hm]
    simp only [List.not_mem_nil, false_iff]
    tauto

theorem getPoints_sorted (h : Histogram) :
    List.Sorted (· < ·) h.getPointsFromMostFrequentBin := by
  unfold Histogram.getPointsFromMostFrequentBin
  by_cases hm : 0 < h.mostFrequentBin.2
  · rw [if_pos hm]
    exact (List.pairwise_lt_range _).filter _
  · rw [if_neg hm]
    exact List.sorted_nil

/-! ## Lemmas on the histogram invariant -/

theorem Histogram.build_bins (B n : ℕ) (coords : ℕ → ℤ × ℤ) (mask : ℕ → Bool) :
    (Histogram.build B n coords mask).bins
      = ((List.range n).foldl (histBuildStep B coords mask)
          (fun _ => 0, fun _ => -1)).2 := rfl

theorem Histogram.build_hist (B n : ℕ) (coords : ℕ → ℤ × ℤ) (mask : ℕ → Bool) :
    (Histogram.build B n coords mask).hist
      = ((List.range n).foldl (histBuildStep B coords mask)
          (fun _ => 0, fun _ => -1)).1 := rfl

theorem hist_build_go (B : ℕ) (coords : ℕ → ℤ × ℤ) (mask : ℕ → Bool) :
    ∀ (l : List ℕ) (h0 : ℤ → ℤ) (b0 : ℕ → ℤ),
      (∀ j, (l.foldl (histBuildStep B coords mask) (h0, b0)).2 j
          = if j ∈ l ∧ mask j = true then binOfCoords B (coords j) else b0 j) ∧
      (∀ b, (l.foldl (histBuildStep B coords mask) (h0, b0)).1 b
          = h0 b + ((l.filter
              (fun i => mask i && decide (binOfCoords B (coords i) = b))).length : ℤ)) := by
  intro l
  induction l with
  | nil =>
    intro h0 b0
    constructor
    · intro j; simp
    · intro b; simp
  | cons i t ih =>
    intro h0 b0
    by_cases hm : mask i = true
    · have hstep : histBuildStep B coords mask (h0, b0) i
          = (upd h0 (binOfCoords B (coords i)) (h0 (binOfCoords B (coords i)) + 1),
             upd b0 i (binOfCoords B (coords i))) := by
        unfold histBuildStep; rw [if_pos hm]
      have hfold : (i :: t).foldl (histBuildStep B coords mask) (h0, b0)
          = t.foldl (histBuildStep B coords mask)
              (upd h0 (binOfCoords B (coords i)) (h0 (binOfCoords B (coords i)) + 1),
               upd b0 i (binOfCoords B (coords i))) := by
        rw [List.foldl_cons, hstep]
      obtain ⟨ih1, ih2⟩ := ih
        (upd h0 (binOfCoords B (coords i)) (h0 (binOfCoords B (coords i)) + 1))
        (upd b0 i (binOfCoords B (coords i)))
      constructor
      · intro j
        rw [hfold, ih1 j]
        by_cases hjt : j ∈ t ∧ mask j = true
        · rw [if_pos hjt, if_pos ⟨List.mem_cons_of_mem i hjt.1, hjt.2⟩]
        · rw [if_neg hjt]
          by_cases hji : j = i
          · subst hji
            rw [if_pos ⟨List.mem_cons_self j t, hm⟩]
            unfold upd
            rw [if_pos rfl]
          · have : ¬(j ∈ i :: t ∧ mask j = true) := by
              intro hc
              rcases List.mem_cons.mp hc.1 with h1 | h1
              · exact hji h1
              · exact hjt ⟨h1, hc.2⟩
            rw [if_neg this]
            unfold upd
            rw [if_neg hji]
      · intro b
        rw [hfold, ih2 b]
        rw [List.filter_cons]
        by_cases hbb : binOfCoords B (coords i) = b
        · have hpred : (mask i && decide (binOfCoords B (coords i) = b)) = true := by
            rw [hm, hbb]; simp
          rw [if_pos hpred]
          unfold upd
          rw [if_pos hbb.symm]
          simp only [List.length_cons]
          push_cast
          rw [hbb]
          ring
        · have hpred : ¬(mask i && decide (binOfCoords B (coords i) = b)) = true := by
            simp [hbb]
          rw [if_neg hpred]
          unfold upd
          rw [if_neg (fun hc => hbb hc.symm)]
    · have hfold : (i :: t).foldl (histBuildStep B coords mask) (h0, b0)
          = t.foldl (histBuildStep B coords mask) (h0, b0) := by
        rw [List.foldl_cons]
        unfold histBuildStep
        rw [if_neg hm]
      obtain ⟨ih1, ih2⟩ := ih h0 b0
      constructor
      · intro j
        rw [hfold, ih1 j]
        by_cases hjt : j ∈ t ∧ mask j = true
        · rw [if_pos hjt, if_pos ⟨List.mem_cons_of_mem i hjt.1, hjt.2⟩]
        · rw [if_neg hjt, if_neg]
          intro hc
          rcases List.mem_cons.mp hc.1 with h1 | h1
          · subst h1; exact hm hc.2
          · exact hjt ⟨h1, hc.2⟩
      · intro b
        rw [hfold, ih2 b, List.filter_cons, if_neg]
        simp [hm]

theorem filter_length_remove (q : ℕ → Bool) :
    ∀ (l : List ℕ), l.Nodup → ∀ p, p ∈ l → q p = true →
      (l.filter (fun i => q i && !decide (i = p))).length + 1
        = (l.filter q).length := by
  intro l
  induction l with
  | nil =>
    intro _ p hp _
    exact absurd hp (List.not_mem_nil _)
  | cons a t ih =>
    intro hl p hp hq
    rcases List.mem_cons.mp hp with hap | hpt
    · subst hap
      have hat : p ∉ t := (List.nodup_cons.mp hl).1
      rw [List.filter_cons, List.filter_cons]
      have h1 : (q p && !decide (p = p)) = false := by simp
      rw [if_neg (by rw [h1]; exact Bool.false_ne_true), if_pos hq]
      have h2 : t.filter (fun i => q i && !decide (i = p)) = t.filter q := by
        apply List.filter_congr
        intro i hi
        have hia : i ≠ p := fun hc => hat (hc ▸ hi)
        simp [hia]
      rw [h2, List.length_cons]
    · have hnd : t.Nodup := (List.nodup_cons.mp hl).2
      have hap : a ≠ p := fun hc => (List.nodup_cons.mp hl).1 (hc ▸ hpt)
      rw [List.filter_cons, List.filter_cons]
      by_cases hqa : q a = true
      · have h1 : (q a && !decide (a = p)) = true := by simp [hqa, hap]
        rw [if_pos h1, if_pos hqa]
        simp only [List.length_cons]
        rw [← ih hnd p hpt hq]
      · have h1 : (q a && !decide (a = p)) ≠ true := by simp [hqa]
        rw [if_neg h1, if_neg hqa]
        exact ih hnd p hpt hq

theorem HistInv_congr {B n : ℕ} {coords : ℕ → ℤ × ℤ} {mask rem1 rem2 : ℕ → Bool}
    {hg : Histogram} (hr : ∀ i, rem1 i = rem2 i) :
    HistInv B n coords mask rem1 hg → HistInv B n coords mask rem2 hg := by
  intro ⟨h1, h2⟩
  constructor
  · intro i hi; rw [h1 i hi, hr i]
  · intro b
    rw [h2 b]
    unfold binCount
    congr 1
    apply congrArg
    apply List.filter_congr
    intro i _
    rw [hr i]

theorem hist_remove_step {B n : ℕ} {coords : ℕ → ℤ × ℤ} {mask rem : ℕ → Bool}
    {hg : Histogram} {p : ℕ} (hp : p < n) (hm : mask p = true)
    (hr : rem p = true) (hinv : HistInv B n coords mask rem hg) :
    HistInv B n coords mask (fun i => rem i && !decide (i = p))
      (hg.removePoint p) := by
  obtain ⟨hb, hh⟩ := hinv
  have hbp : hg.bins p = binOfCoords B (coords p) := by
    rw [hb p hp, hm, hr]
    simp
  constructor
  · intro i hi
    show upd hg.bins p (-1) i = _
    unfold upd
    by_cases hip : i = p
    · subst hip
      rw [if_pos rfl, if_neg]
      simp
    · rw [if_neg hip, hb i hi]
      simp [hip]
  · intro b
    show upd hg.hist (hg.bins p) (hg.hist (hg.bins p) - 1) b = _
    unfold upd
    by_cases hbb : b = hg.bins p
    · rw [if_pos hbb, hh (hg.bins p)]
      subst hbb
      rw [hbp]
      unfold binCount
      have hql : ((List.range n).filter (fun i => mask i && rem i &&
            decide (binOfCoords B (coords i) = binOfCoords B (coords p))
              && !decide (i = p))).length + 1
          = ((List.range n).filter (fun j => mask j && rem j &&
              decide (binOfCoords B (coords j) = binOfCoords B (coords p)))).length := by
        exact filter_length_remove
          (fun j => mask j && rem j &&
            decide (binOfCoords B (coords j) = binOfCoords B (coords p)))
          (List.range n) (List.nodup_range n) p (List.mem_range.mpr hp)
          (by simp [hm, hr])
      have hco : (List.range n).filter (fun i => mask i && (rem i && !decide (i = p))
            && decide (binOfCoords B (coords i) = binOfCoords B (coords p)))
          = (List.range n).filter (fun i => (mask i && rem i &&
              decide (binOfCoords B (coords i) = binOfCoords B (coords p)))
                && !decide (i = p)) := by
        apply List.filter_congr
        intro i _
        cases mask i <;> cases rem i <;> cases decide (i = p) <;>
          cases decide (binOfCoords B (coords i) = binOfCoords B (coords p)) <;> rfl
      rw [hco, ← hql, Nat.cast_add, Nat.cast_one]
      exact add_sub_cancel_right _ 1
    · rw [if_neg hbb, hh b]
      unfold binCount
      congr 1
      apply congrArg
      apply List.filter_congr
      intro i _
      by_cases hip : i = p
      · subst hip
        have h1 : binOfCoords B (coords i) ≠ b := by
          intro hc
          exact hbb (by rw [← hc, hbp])
        simp [h1]
      · simp [hip]
    
theorem hist_remove_fold {B n : ℕ} {coords : ℕ → ℤ × ℤ} {mask : ℕ → Bool} :
    ∀ (l : List ℕ) (hg : Histogram) (rem : ℕ → Bool),
      l.Nodup → (∀ p ∈ l, p < n ∧ mask p = true ∧ rem p = true) →
      HistInv B n coords mask rem hg →
      HistInv B n coords mask (fun i => rem i && decide (i ∉ l))
        (l.foldl Histogram.removePoint hg) := by
  intro l
  induction l with
  | nil =>
    intro hg rem _ _ hinv
    exact HistInv_congr (fun i => by simp) hinv
  | cons p t ih =>
    intro hg rem hnd hmem hinv
    obtain ⟨hp, hm, hr⟩ := hmem p (List.mem_cons_self p t)
    have hstep := hist_remove_step hp hm hr hinv
    have hmem2 : ∀ q ∈ t, q < n ∧ mask q = true ∧
        (rem q && !decide (q = p)) = true := by
      intro q hq
      obtain ⟨h1, h2, h3⟩ := hmem q (List.mem_cons_of_mem p hq)
      refine ⟨h1, h2, ?_⟩
      have : q ≠ p := fun hc => (List.nodup_cons.mp hnd).1 (hc ▸ hq)
      simp [h3, this]
    have hfold := ih (hg.removePoint p) (fun i => rem i && !decide (i = p))
      (List.nodup_cons.mp hnd).2 hmem2 hstep
    rw [List.foldl_cons]
    refine HistInv_congr (fun i => ?_) hfold
    by_cases h1 : i = p <;> by_cases h2 : i ∈ t <;>
      simp [h1, h2, List.mem_cons]

theorem hist_build_inv (B n : ℕ) (coords : ℕ → ℤ × ℤ) (mask : ℕ → Bool) :
    HistInv B n coords mask (fun _ => true) (Histogram.build B n coords mask) := by
  obtain ⟨h1, h2⟩ := hist_build_go B coords mask (List.range n)
    (fun _ => 0) (fun _ => -1)
  constructor
  · intro i hi
    rw [Histogram.build_bins, h1 i]
    have hmem : i ∈ List.range n := List.mem_range.mpr hi
    by_cases hm : mask i = true
    · rw [if_pos ⟨hmem, hm⟩, if_pos (by rw [hm]; rfl)]
    · rw [if_neg (fun hc => hm hc.2), if_neg]
      rw [Bool.and_true]
      exact hm
  · intro b
    rw [Histogram.build_hist, h2 b]
    unfold binCount
    rw [zero_add]
    congr 1
    apply congrArg
    apply List.filter_congr
    intro i _
    rw [Bool.and_true]

/-! ## Lemmas on `growSeed` -/

theorem bind_eq_ok {A B : Type} {e : Except Unit A} {f : A → Except Unit B}
    {r : B} (h : e.bind f = Except.ok r) :
    ∃ m, e = Except.ok m ∧ f m = Except.ok r := by
  cases e with
  | error ex => exact absurd h (by simp [Except.bind])
  | ok m => exact ⟨m, rfl, h⟩

theorem bind_ok_of {A B : Type} {e : Except Unit A} {f : A → Except Unit B}
    (h : ∃ r, e = Except.ok r) (hf : ∀ r, ∃ s, f r = Except.ok s) :
    ∃ s, e.bind f = Except.ok s := by
  obtain ⟨r, hr⟩ := h
  obtain ⟨s, hs⟩ := hf r
  exact ⟨s, by rw [hr]; exact hs⟩

theorem guard_ok {A : Type} {c : Prop} [Decidable c] {e : Except Unit A} (a : A)
    (h : c → ∃ r, e = Except.ok r) :
    ∃ r, (if c then e else Except.ok a) = Except.ok r := by
  by_cases hc : c
  · rw [if_pos hc]; exact h hc
  · rw [if_neg hc]; exact ⟨a, rfl⟩

/-- The index computed by `growSeed` from in-range coordinates is below the
total cell count, so the `std::out_of_range` branch is not taken and the
call returns normally (for any fuel). -/
theorem growSeedE_ok (Hc Wc : ℕ) (minCos : ℚ) (der : ℕ → Derived)
    (tols : ℕ → ℚ) (unassigned : ℕ → Bool) :
    ∀ (fuel x y prev : ℕ) (amap : ℕ → Bool), x < Wc → y < Hc →
      ∃ r, growSeedE Hc Wc minCos der tols unassigned fuel x y prev amap
          = Except.ok r := by
  intro fuel
  induction fuel with
  | zero => intro x y prev amap _ _; exact ⟨amap, rfl⟩
  | succ fuel ih =>
    intro x y prev amap hx hy
    have hidx : ¬(Hc * Wc ≤ x + Wc * y) := idx_not_le hx hy
    simp only [growSeedE]
    rw [if_neg hidx]
    by_cases h1 : (!unassigned (x + Wc * y) || amap (x + Wc * y)) = true
    · rw [if_pos h1]; exact ⟨amap, rfl⟩
    · rw [if_neg h1]
      by_cases h2 : dot3 (der prev).normal (der (x + Wc * y)).normal < minCos ∨
          tols (x + Wc * y)
            < sqQ (dot3 (der prev).normal (der (x + Wc * y)).mean + (der prev).d)
      · rw [if_pos h2]; exact ⟨amap, rfl⟩
      · rw [if_neg h2]
        refine bind_ok_of (guard_ok _ (fun h => ih (x - 1) y _ _
          (Nat.lt_of_le_of_lt (Nat.sub_le x 1) hx) hy))
          (fun am2 => ?_)
        refine bind_ok_of (guard_ok _ (fun h => ih (x + 1) y _ _
          (Nat.add_lt_of_lt_sub h) hy))
          (fun am3 => ?_)
        refine bind_ok_of (guard_ok _ (fun h => ih x (y - 1) _ _ hx
          (Nat.lt_of_le_of_lt (Nat.sub_le y 1) hy)))
          (fun am4 => ?_)
        exact guard_ok _ (fun h => ih x (y + 1) _ _ hx (Nat.add_lt_of_lt_sub h))

theorem guard_mono {c : Prop} [Decidable c] {e : Except Unit (ℕ → Bool)}
    {am m : ℕ → Bool} (h : (if c then e else Except.ok am) = Except.ok m)
    (he : c → e = Except.ok m → ∀ i, am i = true → m i = true) :
    ∀ i, am i = true → m i = true := by
  by_cases hc : c
  · rw [if_pos hc] at h; exact he hc h
  · rw [if_neg hc] at h
    injection h with h
    subst h
    exact fun i hi => hi

/-- `growSeed` only adds cells to the activation map. -/
theorem growSeedE_mono (Hc Wc : ℕ) (minCos : ℚ) (der : ℕ → Derived)
    (tols : ℕ → ℚ) (unassigned : ℕ → Bool) :
    ∀ (fuel x y prev : ℕ) (amap r : ℕ → Bool),
      growSeedE Hc Wc minCos der tols unassigned fuel x y prev amap
          = Except.ok r →
      ∀ i, amap i = true → r i = true := by
  intro fuel
  induction fuel with
  | zero =>
    intro x y prev amap r h
    injection h with h
    subst h
    exact fun i hi => hi
  | succ fuel ih =>
    intro x y prev amap r h
    rw [growSeedE] at h
    by_cases h0 : Hc * Wc ≤ x + Wc * y
    · rw [if_pos h0] at h; exact absurd h (by simp)
    rw [if_neg h0] at h
    by_cases h1 : (!unassigned (x + Wc * y) || amap (x + Wc * y)) = true
    · rw [if_pos h1] at h
      injection h with h
      subst h
      exact fun i hi => hi
    rw [if_neg h1] at h
    by_cases h2 : dot3 (der prev).normal (der (x + Wc * y)).normal < minCos ∨
        tols (x + Wc * y)
          < sqQ (dot3 (der prev).normal (der (x + Wc * y)).mean + (der prev).d)
    · rw [if_pos h2] at h
      injection h with h
      subst h
      exact fun i hi => hi
    rw [if_neg h2] at h
    simp only at h
    obtain ⟨m2, hm2, h⟩ := bind_eq_ok h
    obtain ⟨m3, hm3, h⟩ := bind_eq_ok h
    obtain ⟨m4, hm4, h⟩ := bind_eq_ok h
    intro i hi
    have s1 : upd amap (x + Wc * y) true i = true := by
      unfold upd
      by_cases hc : i = x + Wc * y
      · rw [if_pos hc]
      · rw [if_neg hc]; exact hi
    have s2 : m2 i = true := guard_mono hm2 (fun hc he => ih _ _ _ _ _ he) i s1
    have s3 : m3 i = true := guard_mono hm3 (fun hc he => ih _ _ _ _ _ he) i s2
    have s4 : m4 i = true := guard_mono hm4 (fun hc he => ih _ _ _ _ _ he) i s3
    exact guard_mono h (fun hc he => ih _ _ _ _ _ he) i s4

/-- The compatibility proposition a candidate cell `c` must satisfy against
a parent cell `par` to be activated by `growSeed`:
`cos >= minCosAngleForMerge` and squared point-to-plane distance within the
cell's tolerance. -/
def growCompat (minCos : ℚ) (der : ℕ → Derived) (tols : ℕ → ℚ)
    (par c : ℕ) : Prop :=
  ¬(dot3 (der par).normal (der c).normal < minCos) ∧
  ¬(tols c < sqQ (dot3 (der par).normal (der c).mean + (der par).d))

/-- Every cell newly activated by `growSeed` was in the unassigned mask and
passed the compatibility test against the parent it was reached from. -/
theorem growSeedE_sound (Hc Wc : ℕ) (minCos : ℚ) (der : ℕ → Derived)
    (tols : ℕ → ℚ) (unassigned : ℕ → Bool) :
    ∀ (fuel x y prev : ℕ) (amap r : ℕ → Bool),
      growSeedE Hc Wc minCos der tols unassigned fuel x y prev amap
          = Except.ok r →
      ∀ c, r c = true → amap c = true ∨
        (unassigned c = true ∧ ∃ par, growCompat minCos der tols par c) := by
  intro fuel
  induction fuel with
  | zero =>
    intro x y prev amap r h
    injection h with h
    subst h
    exact fun c hc => Or.inl hc
  | succ fuel ih =>
    intro x y prev amap r h
    rw [growSeedE] at h
    by_cases h0 : Hc * Wc ≤ x + Wc * y
    · rw [if_pos h0] at h; exact absurd h (by simp)
    rw [if_neg h0] at h
    by_cases h1 : (!unassigned (x + Wc * y) || amap (x + Wc * y)) = true
    · rw [if_pos h1] at h
      injection h with h
      subst h
      exact fun c hc => Or.inl hc
    rw [if_neg h1] at h
    by_cases h2 : dot3 (der prev).normal (der (x + Wc * y)).normal < minCos ∨
        tols (x + Wc * y)
          < sqQ (dot3 (der prev).normal (der (x + Wc * y)).mean + (der prev).d)
    · rw [if_pos h2] at h
      injection h with h
      subst h
      exact fun c hc => Or.inl hc
    rw [if_neg h2] at h
    simp only at h
    obtain ⟨m2, hm2, h⟩ := bind_eq_ok h
    obtain ⟨m3, hm3, h⟩ := bind_eq_ok h
    obtain ⟨m4, hm4, h⟩ := bind_eq_ok h
    have hun : unassigned (x + Wc * y) = true ∧ amap (x + Wc * y) = false := by
      constructor
      · by_contra hc
        apply h1
        simp only [Bool.or_eq_true, Bool.not_eq_true] at hc
        simp [hc]
      · by_contra hc
        apply h1
        simp only [Bool.not_eq_false] at hc
        simp [hc]
    have h2c := not_or.mp h2
    have step1 : ∀ c, upd amap (x + Wc * y) true c = true → amap c = true ∨
        (unassigned c = true ∧ ∃ par, growCompat minCos der tols par c) := by
      intro c hc
      unfold upd at hc
      by_cases hce : c = x + Wc * y
      · subst hce
        exact Or.inr ⟨hun.1, prev, h2c.1, h2c.2⟩
      · rw [if_neg hce] at hc
        exact Or.inl hc
    have lift : ∀ {am m : ℕ → Bool},
        (∀ c, am c = true → amap c = true ∨
          (unassigned c = true ∧ ∃ par, growCompat minCos der tols par c)) →
        (∀ c2, m c2 = true → am c2 = true ∨
          (unassigned c2 = true ∧ ∃ par, growCompat minCos der tols par c2)) →
        ∀ c, m c = true → amap c = true ∨
          (unassigned c = true ∧ ∃ par, growCompat minCos der tols par c) := by
      intro am m hbase hstep c hc
      rcases hstep c hc with hc2 | hc2
      · exact hbase c hc2
      · exact Or.inr hc2
    have sguard : ∀ {cnd : Prop} [Decidable cnd] {fx fy fp : ℕ}
        {am m : ℕ → Bool},
        (if cnd then growSeedE Hc Wc minCos der tols unassigned fuel fx fy fp am
         else Except.ok am) = Except.ok m →
        ∀ c, m c = true → am c = true ∨
          (unassigned c = true ∧ ∃ par, growCompat minCos der tols par c) := by
      intro cnd inst fx fy fp am m hg c hc
      by_cases hcnd : cnd
      · rw [if_pos hcnd] at hg
        exact ih _ _ _ _ _ hg c hc
      · rw [if_neg hcnd] at hg
        injection hg with hg
        subst hg
        exact Or.inl hc
    exact lift (lift (lift (lift step1 (sguard hm2)) (sguard hm3)) (sguard hm4))
      (sguard h)

/-! ## Lemmas on the plane association matrix -/

theorem symInner (r : ℕ) :
    ∀ (cs : List ℕ) (m : ℕ → ℕ → Bool), cs.Nodup →
      (∀ x y, x ≠ r → cs.foldl (symColStep r) m x y = m x y) ∧
      (∀ y, y ∉ cs → cs.foldl (symColStep r) m r y = m r y) ∧
      (∀ y ∈ cs, cs.foldl (symColStep r) m r y = (m r y || m y r)) := by
  intro cs
  induction cs with
  | nil =>
    intro m _
    exact ⟨fun x y _ => rfl, fun y _ => rfl, by simp⟩
  | cons c0 rest ih =>
    intro m hnd
    have hc0 : c0 ∉ rest := (List.nodup_cons.mp hnd).1
    obtain ⟨ihA, ihB, ihC⟩ := ih (symColStep r m c0) (List.nodup_cons.mp hnd).2
    have hm1A : ∀ x y, x ≠ r → symColStep r m c0 x y = m x y := by
      intro x y hx
      unfold symColStep
      rw [if_neg (fun hc => hx hc.1)]
    have hm1B : ∀ y, y ≠ c0 → symColStep r m c0 r y = m r y := by
      intro y hy
      unfold symColStep
      rw [if_neg (fun hc => hy hc.2)]
    have hm1C : symColStep r m c0 r c0 = (m r c0 || m c0 r) := by
      unfold symColStep
      rw [if_pos ⟨rfl, rfl⟩]
    refine ⟨?_, ?_, ?_⟩
    · intro x y hx
      rw [List.foldl_cons, ihA x y hx, hm1A x y hx]
    · intro y hy
      have hy0 : y ≠ c0 := fun hc => hy (hc ▸ List.mem_cons_self c0 rest)
      have hyr : y ∉ rest := fun hc => hy (List.mem_cons_of_mem c0 hc)
      rw [List.foldl_cons, ihB y hyr, hm1B y hy0]
    · intro y hy
      rw [List.foldl_cons]
      rcases List.mem_cons.mp hy with hy0 | hyr
      · subst hy0
        rw [ihB y hc0, hm1C]
      · have hy0 : y ≠ c0 := fun hc => hc0 (hc ▸ hyr)
        rw [ihC y hyr, hm1B y hy0]
        congr 1
        by_cases hyr2 : y = r
        · subst hyr2
          by_cases hcr : c0 = y
          · exact absurd hcr.symm hy0
          · exact hm1B y (fun hc => hcr hc.symm)
        · exact hm1A y r hyr2

theorem symOuter (K : ℕ) :
    ∀ (rs : List ℕ), rs.Nodup → (∀ r ∈ rs, r < K) →
      ∀ (m : ℕ → ℕ → Bool) (a b : ℕ), a < K → b < K →
        rs.foldl (symRowStep K) m a b
          = (m a b || (decide (a ∈ rs) && m b a)) := by
  intro rs
  induction rs with
  | nil => intro _ _ m a b _ _; simp
  | cons r rest ih =>
    intro hnd hlt m a b ha hb
    rw [List.foldl_cons]
    obtain ⟨inA, inB, inC⟩ := symInner r (List.range K) m (List.nodup_range K)
    rw [ih (List.nodup_cons.mp hnd).2
      (fun q hq => hlt q (List.mem_cons_of_mem r hq)) (symRowStep K m r) a b ha hb]
    by_cases har : a = r
    · subst har
      have h1 : symRowStep K m a a b = (m a b || m b a) :=
        inC b (List.mem_range.mpr hb)
      have hanr : a ∉ rest := (List.nodup_cons.mp hnd).1
      rw [h1]
      have hd1 : decide (a ∈ rest) = false := by simp [hanr]
      have hd2 : decide (a ∈ a :: rest) = true := by simp
      rw [hd1, hd2]
      simp
    · have h1 : symRowStep K m r a b = m a b := inA a b har
      rw [h1]
      by_cases hain : a ∈ rest
      · have hmem : a ∈ r :: rest := List.mem_cons_of_mem r hain
        have hd1 : decide (a ∈ rest) = true := by simp [hain]
        have hd2 : decide (a ∈ r :: rest) = true := by simp [hmem]
        rw [hd1, hd2]
        by_cases hbr : b = r
        · subst hbr
          have h2 : symRowStep K m b b a = (m b a || m a b) :=
            inC a (List.mem_range.mpr ha)
          rw [h2]
          cases m a b <;> cases m b a <;> rfl
        · have h2 : symRowStep K m r b a = m b a := inA b a hbr
          rw [h2]
      · have hnm : a ∉ r :: rest := by
          intro hc
          rcases List.mem_cons.mp hc with h | h
          · exact har h
          · exact hain h
        have hd1 : decide (a ∈ rest) = false := by simp [hain]
        have hd2 : decide (a ∈ r :: rest) = false := by simp [hnm]
        rw [hd1, hd2]
        simp

/-- For entries below `K`, the in-place symmetrization computes exactly
the entrywise disjunction with the transpose. -/
theorem ccSymmetrize_eq (K : ℕ) (m : ℕ → ℕ → Bool) (a b : ℕ)
    (ha : a < K) (hb : b < K) :
    ccSymmetrize K m a b = (m a b || m b a) := by
  unfold ccSymmetrize
  rw [symOuter K (List.range K) (List.nodup_range K)
    (fun r hr => List.mem_range.mp hr) m a b ha hb]
  have : decide (a ∈ List.range K) = true := by simp [List.mem_range.mpr ha]
  rw [this]
  simp

theorem updM_mem (m : ℕ → ℕ → Bool) (x y a b : ℕ) :
    updM m x y a b = true ↔ ((a = x ∧ b = y) ∨ m a b = true) := by
  unfold updM
  by_cases h : a = x ∧ b = y
  · rw [if_pos h]; simp [h]
  · rw [if_neg h]; simp [h]

theorem ccScanStep_mem (Wc : ℕ) (grid : ℕ → ℕ) (m : ℕ → ℕ → Bool)
    (rc : ℕ × ℕ) (a b : ℕ) :
    ccScanStep Wc grid m rc a b = true ↔
      (m a b = true ∨ ccContrib Wc grid rc a b) := by
  unfold ccScanStep ccContrib
  by_cases h0 : 0 < grid (rc.1 * Wc + rc.2)
  · rw [if_pos h0]
    by_cases hR : 0 < grid (rc.1 * Wc + (rc.2 + 1)) ∧
        grid (rc.1 * Wc + rc.2) ≠ grid (rc.1 * Wc + (rc.2 + 1))
    · by_cases hD : 0 < grid ((rc.1 + 1) * Wc + rc.2) ∧
          grid (rc.1 * Wc + rc.2) ≠ grid ((rc.1 + 1) * Wc + rc.2)
      · rw [if_pos hD, if_pos hR, updM_mem, updM_mem]
        tauto
      · rw [if_neg hD, if_pos hR, updM_mem]
        tauto
    · by_cases hD : 0 < grid ((rc.1 + 1) * Wc + rc.2) ∧
          grid (rc.1 * Wc + rc.2) ≠ grid ((rc.1 + 1) * Wc + rc.2)
      · rw [if_pos hD, if_neg hR, updM_mem]
        tauto
      · rw [if_neg hD, if_neg hR]
        tauto
  · rw [if_neg h0]
    simp [h0]

theorem ccScanFold_mem (Wc : ℕ) (grid : ℕ → ℕ) :
    ∀ (ps : List (ℕ × ℕ)) (m : ℕ → ℕ → Bool) (a b : ℕ),
      ps.foldl (ccScanStep Wc grid) m a b = true ↔
        (m a b = true ∨ ∃ rc ∈ ps, ccContrib Wc grid rc a b) := by
  intro ps
  induction ps with
  | nil => intro m a b; simp
  | cons p t ih =>
    intro m a b
    rw [List.foldl_cons, ih (ccScanStep Wc grid m p) a b]
    constructor
    · rintro (hm | ⟨rc, hrc, hcc⟩)
      · rcases (ccScanStep_mem Wc grid m p a b).mp hm with h | h
        · exact Or.inl h
        · exact Or.inr ⟨p, List.mem_cons_self p t, h⟩
      · exact Or.inr ⟨rc, List.mem_cons_of_mem p hrc, hcc⟩
    · rintro (hm | ⟨rc, hrc, hcc⟩)
      · exact Or.inl ((ccScanStep_mem Wc grid m p a b).mpr (Or.inl hm))
      · rcases List.mem_cons.mp hrc with h | h
        · subst h
          exact Or.inl ((ccScanStep_mem Wc grid m rc a b).mpr (Or.inr hcc))
        · exact Or.inr ⟨rc, h, hcc⟩

theorem ccScanPositions_mem (Hc Wc : ℕ) (rc : ℕ × ℕ) :
    rc ∈ ccScanPositions Hc Wc ↔ rc.1 < Hc - 1 ∧ rc.2 < Wc - 1 := by
  unfold ccScanPositions
  rw [List.mem_flatMap]
  constructor
  · rintro ⟨r, hr, hmem⟩
    rw [List.mem_map] at hmem
    obtain ⟨c, hc, hrc⟩ := hmem
    rw [← hrc]
    exact ⟨List.mem_range.mp hr, List.mem_range.mp hc⟩
  · rintro ⟨h1, h2⟩
    refine ⟨rc.1, List.mem_range.mpr h1, ?_⟩
    rw [List.mem_map]
    exact ⟨rc.2, List.mem_range.mpr h2, rfl⟩

/-! ## Stability of the per-pixel refinement in the stacked segment
buffer, and idempotence of a repeated `process` call -/

theorem SegStab_refl (s s1 : ℕ → ℕ) : SegStab s s1 s s1 :=
  fun _ => Or.inr ⟨rfl, rfl⟩

theorem SegStab_comp {s s1 m m1 f f1 : ℕ → ℕ}
    (h1 : SegStab s s1 m m1) (h2 : SegStab m m1 f f1) : SegStab s s1 f f1 := by
  intro t
  rcases h2 t with h | ⟨ha, hb⟩
  · exact Or.inl h
  · rcases h1 t with h | ⟨hc, hd⟩
    · exact Or.inl (by rw [ha, hb, h])
    · exact Or.inr ⟨ha.trans hc, hb.trans hd⟩

theorem SegStab_upd {s s1 f f1 : ℕ → ℕ} (h : SegStab s s1 f f1) (pt v : ℕ) :
    SegStab s s1 (upd f pt v) (upd f1 pt v) := by
  intro t
  unfold upd
  by_cases ht : t = pt
  · rw [if_pos ht, if_pos ht]
    exact Or.inl rfl
  · rw [if_neg ht, if_neg ht]
    exact h t

theorem refinePixelStep_stab (pp : ℕ) (organized : ℕ → V3) (plane : Derived)
    (label : ℕ) (maxDist : ℚ) (cid : ℕ) (j : ℕ) (d : ℕ → ℚ)
    (sg sg1 : ℕ → ℕ) :
    (refinePixelStep pp organized plane label maxDist cid (d, sg) j).1
      = (refinePixelStep pp organized plane label maxDist cid (d, sg1) j).1 ∧
    SegStab sg sg1
      (refinePixelStep pp organized plane label maxDist cid (d, sg) j).2
      (refinePixelStep pp organized plane label maxDist cid (d, sg1) j).2 := by
  unfold refinePixelStep
  dsimp only
  by_cases hc : sqQ (dot3 plane.normal (organized (cid * pp + j)) + plane.d) < maxDist ∧
      sqQ (dot3 plane.normal (organized (cid * pp + j)) + plane.d) < d (cid * pp + j)
  · rw [if_pos hc, if_pos hc]
    exact ⟨rfl, SegStab_upd (SegStab_refl sg sg1) _ _⟩
  · rw [if_neg hc, if_neg hc]
    exact ⟨rfl, SegStab_refl sg sg1⟩

theorem refineCellPixels_fold_stab (pp : ℕ) (organized : ℕ → V3)
    (plane : Derived) (label : ℕ) (maxDist : ℚ) (cid : ℕ) :
    ∀ (l : List ℕ) (d : ℕ → ℚ) (sg sg1 : ℕ → ℕ),
      (l.foldl (refinePixelStep pp organized plane label maxDist cid) (d, sg)).1
        = (l.foldl (refinePixelStep pp organized plane label maxDist cid) (d, sg1)).1 ∧
      SegStab sg sg1
        (l.foldl (refinePixelStep pp organized plane label maxDist cid) (d, sg)).2
        (l.foldl (refinePixelStep pp organized plane label maxDist cid) (d, sg1)).2 := by
  intro l
  induction l with
  | nil => intro d sg sg1; exact ⟨rfl, SegStab_refl sg sg1⟩
  | cons j t ih =>
    intro d sg sg1
    rw [List.foldl_cons, List.foldl_cons]
    obtain ⟨hd, hstab⟩ := refinePixelStep_stab pp organized plane label maxDist cid j d sg sg1
    have hpair : refinePixelStep pp organized plane label maxDist cid (d, sg) j
        = ((refinePixelStep pp organized plane label maxDist cid (d, sg) j).1,
           (refinePixelStep pp organized plane label maxDist cid (d, sg) j).2) := rfl
    have hpair1 : refinePixelStep pp organized plane label maxDist cid (d, sg1) j
        = ((refinePixelStep pp organized plane label maxDist cid (d, sg) j).1,
           (refinePixelStep pp organized plane label maxDist cid (d, sg1) j).2) := by
      rw [hd]
    obtain ⟨ihd, ihstab⟩ := ih
      (refinePixelStep pp organized plane label maxDist cid (d, sg) j).1
      (refinePixelStep pp organized plane label maxDist cid (d, sg) j).2
      (refinePixelStep pp organized plane label maxDist cid (d, sg1) j).2
    rw [hpair, hpair1]
    exact ⟨ihd, SegStab_comp hstab ihstab⟩

theorem refineCellFold_stab (pp : ℕ) (organized : ℕ → V3) (plane : Derived)
    (label : ℕ) (maxDist : ℚ) (mask : ℕ → ℕ) :
    ∀ (l : List ℕ) (d : ℕ → ℚ) (sg sg1 : ℕ → ℕ),
      (l.foldl (refineCellStep pp organized plane label maxDist mask) (d, sg)).1
        = (l.foldl (refineCellStep pp organized plane label maxDist mask) (d, sg1)).1 ∧
      SegStab sg sg1
        (l.foldl (refineCellStep pp organized plane label maxDist mask) (d, sg)).2
        (l.foldl (refineCellStep pp organized plane label maxDist mask) (d, sg1)).2 := by
  intro l
  induction l with
  | nil => intro d sg sg1; exact ⟨rfl, SegStab_refl sg sg1⟩
  | cons cid t ih =>
    intro d sg sg1
    rw [List.foldl_cons, List.foldl_cons]
    have hstep : (refineCellStep pp organized plane label maxDist mask (d, sg) cid).1
        = (refineCellStep pp organized plane label maxDist mask (d, sg1) cid).1 ∧
        SegStab sg sg1
          (refineCellStep pp organized plane label maxDist mask (d, sg) cid).2
          (refineCellStep pp organized plane label maxDist mask (d, sg1) cid).2 := by
      unfold refineCellStep
      by_cases hm : mask cid = 0
      · rw [if_pos hm, if_pos hm]
        exact ⟨rfl, SegStab_refl sg sg1⟩
      · rw [if_neg hm, if_neg hm]
        unfold refineCellPixels
        exact refineCellPixels_fold_stab pp organized plane label maxDist cid
          (List.range pp) d sg sg1
    obtain ⟨hd, hstab⟩ := hstep
    have hpair : refineCellStep pp organized plane label maxDist mask (d, sg) cid
        = ((refineCellStep pp organized plane label maxDist mask (d, sg) cid).1,
           (refineCellStep pp organized plane label maxDist mask (d, sg) cid).2) := rfl
    have hpair1 : refineCellStep pp organized plane label maxDist mask (d, sg1) cid
        = ((refineCellStep pp organized plane label maxDist mask (d, sg) cid).1,
           (refineCellStep pp organized plane label maxDist mask (d, sg1) cid).2) := by
      rw [hd]
    obtain ⟨ihd, ihstab⟩ := ih
      (refineCellStep pp organized plane label maxDist mask (d, sg) cid).1
      (refineCellStep pp organized plane label maxDist mask (d, sg) cid).2
      (refineCellStep pp organized plane label maxDist mask (d, sg1) cid).2
    rw [hpair, hpair1]
    exact ⟨ihd, SegStab_comp hstab ihstab⟩

theorem refineCells_stab (N pp : ℕ) (organized : ℕ → V3) (plane : Derived)
    (label : ℕ) (coeff : ℚ) (mask : ℕ → ℕ) (sg sg1 : ℕ → ℕ) :
    SegStab sg sg1 (refineCells N pp organized plane label coeff mask sg)
      (refineCells N pp organized plane label coeff mask sg1) := by
  unfold refineCells
  exact (refineCellFold_stab pp organized plane label (coeff * plane.mse) mask
    (List.range N) (fun _ => maxFloatQ) sg sg1).2

theorem refinePlaneStep_stab (O : Oracle) (cfg : Config) (Hc Wc pp : ℕ)
    (organized : ℕ → V3) (dflt : Seg O) (segments : List (Seg O)) (K : ℕ)
    (labels grid : ℕ → ℕ) (i cnt : ℕ) (e sg sg1 : ℕ → ℕ) :
    (refinePlaneStep O cfg Hc Wc pp organized dflt segments K labels grid
        (cnt, e, sg) i).1
      = (refinePlaneStep O cfg Hc Wc pp organized dflt segments K labels grid
          (cnt, e, sg1) i).1 ∧
    (refinePlaneStep O cfg Hc Wc pp organized dflt segments K labels grid
        (cnt, e, sg) i).2.1
      = (refinePlaneStep O cfg Hc Wc pp organized dflt segments K labels grid
          (cnt, e, sg1) i).2.1 ∧
    SegStab sg sg1
      (refinePlaneStep O cfg Hc Wc pp organized dflt segments K labels grid
        (cnt, e, sg) i).2.2
      (refinePlaneStep O cfg Hc Wc pp organized dflt segments K labels grid
        (cnt, e, sg1) i).2.2 := by
  unfold refinePlaneStep
  dsimp only
  by_cases h1 : i ≠ labels i
  · rw [if_pos h1, if_pos h1]
    exact ⟨rfl, rfl, SegStab_refl sg sg1⟩
  · rw [if_neg h1, if_neg h1]
    by_cases h2 : (List.range (Hc * Wc)).all
        (fun cid => erodeAt Hc Wc (refineMask K labels grid i) cid = 0)
    · rw [if_pos h2, if_pos h2]
      exact ⟨rfl, rfl, SegStab_refl sg sg1⟩
    · rw [if_neg h2, if_neg h2]
      refine ⟨rfl, rfl, ?_⟩
      exact refineCells_stab (Hc * Wc) pp organized (segments.getD i dflt).der
        (cnt + 1) cfg.refinementMultiplierCoeff _ sg sg1

theorem refinePlanesFold_stab (O : Oracle) (cfg : Config) (Hc Wc pp : ℕ)
    (organized : ℕ → V3) (dflt : Seg O) (segments : List (Seg O)) (K : ℕ)
    (labels grid : ℕ → ℕ) :
    ∀ (l : List ℕ) (cnt : ℕ) (e sg sg1 : ℕ → ℕ),
      (l.foldl (refinePlaneStep O cfg Hc Wc pp organized dflt segments K
          labels grid) (cnt, e, sg)).1
        = (l.foldl (refinePlaneStep O cfg Hc Wc pp organized dflt segments K
            labels grid) (cnt, e, sg1)).1 ∧
      (l.foldl (refinePlaneStep O cfg Hc Wc pp organized dflt segments K
          labels grid) (cnt, e, sg)).2.1
        = (l.foldl (refinePlaneStep O cfg Hc Wc pp organized dflt segments K
            labels grid) (cnt, e, sg1)).2.1 ∧
      SegStab sg sg1
        (l.foldl (refinePlaneStep O cfg Hc Wc pp organized dflt segments K
            labels grid) (cnt, e, sg)).2.2
        (l.foldl (refinePlaneStep O cfg Hc Wc pp organized dflt segments K
            labels grid) (cnt, e, sg1)).2.2 := by
  intro l
  induction l with
  | nil => intro cnt e sg sg1; exact ⟨rfl, rfl, SegStab_refl sg sg1⟩
  | cons i t ih =>
    intro cnt e sg sg1
    rw [List.foldl_cons, List.foldl_cons]
    obtain ⟨hc, he, hstab⟩ := refinePlaneStep_stab O cfg Hc Wc pp organized dflt
      segments K labels grid i cnt e sg sg1
    have hpair : refinePlaneStep O cfg Hc Wc pp organized dflt segments K labels
        grid (cnt, e, sg) i
        = ((refinePlaneStep O cfg Hc Wc pp organized dflt segments K labels grid
            (cnt, e, sg) i).1,
           (refinePlaneStep O cfg Hc Wc pp organized dflt segments K labels grid
            (cnt, e, sg) i).2.1,
           (refinePlaneStep O cfg Hc Wc pp organized dflt segments K labels grid
            (cnt, e, sg) i).2.2) := rfl
    have hpair1 : refinePlaneStep O cfg Hc Wc pp organized dflt segments K labels
        grid (cnt, e, sg1) i
        = ((refinePlaneStep O cfg Hc Wc pp organized dflt segments K labels grid
            (cnt, e, sg) i).1,
           (refinePlaneStep O cfg Hc Wc pp organized dflt segments K labels grid
            (cnt, e, sg) i).2.1,
           (refinePlaneStep O cfg Hc Wc pp organized dflt segments K labels grid
            (cnt, e, sg1) i).2.2) := by
      rw [hc, he]
    obtain ⟨ihc, ihe, ihstab⟩ := ih
      (refinePlaneStep O cfg Hc Wc pp organized dflt segments K labels grid
        (cnt, e, sg) i).1
      (refinePlaneStep O cfg Hc Wc pp organized dflt segments K labels grid
        (cnt, e, sg) i).2.1
      (refinePlaneStep O cfg Hc Wc pp organized dflt segments K labels grid
        (cnt, e, sg) i).2.2
      (refinePlaneStep O cfg Hc Wc pp organized dflt segments K labels grid
        (cnt, e, sg1) i).2.2
    rw [hpair, hpair1]
    exact ⟨ihc, ihe, SegStab_comp hstab ihstab⟩

/-- The eroded label grid produced by `refinePlanes` does not depend on the
incoming stacked segment buffer, and its writes to the stacked buffer are
independent of that buffer's prior contents. -/
theorem refinePlanes_stab (O : Oracle) (cfg : Config) (Hc Wc pp : ℕ)
    (organized : ℕ → V3) (dflt : Seg O) (segments : List (Seg O))
    (labels grid : ℕ → ℕ) (e0 sg sg1 : ℕ → ℕ) :
    (refinePlanes O cfg Hc Wc pp organized dflt segments labels grid e0 sg).2.1
      = (refinePlanes O cfg Hc Wc pp organized dflt segments labels grid e0 sg1).2.1 ∧
    SegStab sg sg1
      (refinePlanes O cfg Hc Wc pp organized dflt segments labels grid e0 sg).2.2
      (refinePlanes O cfg Hc Wc pp organized dflt segments labels grid e0 sg1).2.2 := by
  unfold refinePlanes
  obtain ⟨_, h2, h3⟩ := refinePlanesFold_stab O cfg Hc Wc pp organized dflt
    segments segments.length labels grid (List.range segments.length) 0 e0 sg sg1
  exact ⟨h2, h3⟩

/-- Claim C6.  For every input and state, when refinement is enabled the
label image produced by `process` has length `H * W` and every pixel in the
right/bottom margin (row at least `H_cells * P` or column at least
`W_cells * P`) carries label 0: `toLabels` writes only inside the covered
cell region.  (With refinement disabled the emitted image is the per-cell
label grid of length `N_cells`, which has no margin pixels.) -/
theorem process_margin_pixels_zero (O : Oracle) (cfg : Config) (H W : ℕ)
    (st : State O) (pcd : List V3) (r c : ℕ)
    (href : cfg.doRefinement = true) (hr : r < H) (hc : c < W)
    (hm : H / cfg.patchSize * cfg.patchSize ≤ r ∨
          W / cfg.patchSize * cfg.patchSize ≤ c) :
    (process O cfg H W st pcd).1.length = H * W ∧
    (process O cfg H W st pcd).1.getD (r * W + c) 0 = 0 := by
  have h1 : (process O cfg H W st pcd).1
      = (processFrom O cfg H W st.grid st.eroded st.seg pcd).1 := rfl
  rw [h1]
  unfold processFrom
  simp only [href, if_true]
  have hidx : r * W + c < H * W := rowcol_lt hr hc
  constructor
  · simp
  · rw [getD_map_range _ hidx]
    exact toLabels_margin _ _ _ _ _ _ _ r c (Nat.div_mul_le_self W cfg.patchSize) hc hm

/-- Claim C7.  In each region-growing iteration the candidate list is the
ascending enumeration of the cells assigned to the first most-occupied
histogram bin (whose occupancy is maximal among all bins), and the selected
seed is a candidate of minimal MSE; when several candidates share the
minimal MSE the one with the smallest cell index is selected, because the
list is ascending and the fold updates only on a strict comparison.
(Hypotheses: the candidate list is nonempty and every candidate MSE is
below the `INT_MAX` initialization of `min_mse`.) -/
theorem seed_selection_min_mse_first (h : Histogram) (mse : ℕ → ℚ)
    (hne : h.getPointsFromMostFrequentBin ≠ [])
    (hall : ∀ i ∈ h.getPointsFromMostFrequentBin, mse i < intMaxQ) :
    List.Sorted (· < ·) h.getPointsFromMostFrequentBin ∧
    (∀ i, i ∈ h.getPointsFromMostFrequentBin ↔
      (0 < h.mostFrequentBin.2 ∧ i < h.nrPoints ∧
        h.bins i = (h.mostFrequentBin.1 : ℤ))) ∧
    (∀ b ∈ List.range (h.nrBinsPerCoord * h.nrBinsPerCoord),
        h.hist (Int.ofNat b) ≤ h.mostFrequentBin.2) ∧
    (selectSeed h.getPointsFromMostFrequentBin mse).1
        ∈ h.getPointsFromMostFrequentBin ∧
    (∀ i ∈ h.getPointsFromMostFrequentBin,
        mse (selectSeed h.getPointsFromMostFrequentBin mse).1 ≤ mse i) ∧
    (∀ i ∈ h.getPointsFromMostFrequentBin,
        mse i = mse (selectSeed h.getPointsFromMostFrequentBin mse).1 →
          (selectSeed h.getPointsFromMostFrequentBin mse).1 ≤ i) := by
  have hfold : selectSeed h.getPointsFromMostFrequentBin mse
      = (h.getPointsFromMostFrequentBin).foldl (selectSeedStep mse) (0, intMaxQ) := rfl
  rcases selectSeed_go mse h.getPointsFromMostFrequentBin 0 intMaxQ with
    ⟨heq, hallm⟩ | ⟨l1, l2, hsplit, hr2, hlt, hl1, hmin⟩
  · exfalso
    obtain ⟨x, hx⟩ := List.exists_mem_of_ne_nil _ hne
    exact absurd (hall x hx) (not_lt_of_le (hallm x hx))
  · rw [← hfold] at hsplit hr2 hlt hl1 hmin
    have hmem : (selectSeed h.getPointsFromMostFrequentBin mse).1
        ∈ h.getPointsFromMostFrequentBin := by
      have hmem2 : (selectSeed h.getPointsFromMostFrequentBin mse).1
          ∈ l1 ++ (selectSeed h.getPointsFromMostFrequentBin mse).1 :: l2 :=
        List.mem_append_right l1 (List.mem_cons_self _ _)
      rwa [← hsplit] at hmem2
    refine ⟨getPoints_sorted h, fun i => getPoints_mem h i,
      fun b hb => argmaxFirst_ge h.hist _ b hb, hmem, ?_, ?_⟩
    · intro i hi
      rw [← hr2]
      exact hmin i hi
    · intro i hi htie
      have hs := getPoints_sorted h
      rw [hsplit] at hs hi
      rcases List.mem_append.mp hi with hi1 | hi2
      · exfalso
        have := hl1 i hi1
        rw [htie, ← hr2] at this
        exact lt_irrefl _ this
      · rcases List.mem_cons.mp hi2 with hi3 | hi3
        · exact le_of_eq hi3.symm
        · have hp := (List.pairwise_append.mp hs).2.1
          exact le_of_lt (List.rel_of_pairwise_cons hp hi3)

/-- Claim C7, witness: the two-point one-bin histogram has candidates
`[0, 1]`; with constant MSE `1` every hypothesis is concrete. -/
theorem seed_selection_min_mse_first_witness :
    (histDemo.getPointsFromMostFrequentBin ≠ [] ∧
      ∀ i ∈ histDemo.getPointsFromMostFrequentBin, (fun _ => (1 : ℚ)) i < intMaxQ) ∧
    (List.Sorted (· < ·) histDemo.getPointsFromMostFrequentBin ∧
    (∀ i, i ∈ histDemo.getPointsFromMostFrequentBin ↔
      (0 < histDemo.mostFrequentBin.2 ∧ i < histDemo.nrPoints ∧
        histDemo.bins i = (histDemo.mostFrequentBin.1 : ℤ))) ∧
    (∀ b ∈ List.range (histDemo.nrBinsPerCoord * histDemo.nrBinsPerCoord),
        histDemo.hist (Int.ofNat b) ≤ histDemo.mostFrequentBin.2) ∧
    (selectSeed histDemo.getPointsFromMostFrequentBin (fun _ => (1 : ℚ))).1
        ∈ histDemo.getPointsFromMostFrequentBin ∧
    (∀ i ∈ histDemo.getPointsFromMostFrequentBin,
        (fun _ => (1 : ℚ))
            (selectSeed histDemo.getPointsFromMostFrequentBin (fun _ => (1 : ℚ))).1
          ≤ (fun _ => (1 : ℚ)) i) ∧
    (∀ i ∈ histDemo.getPointsFromMostFrequentBin,
        (fun _ => (1 : ℚ)) i
            = (fun _ => (1 : ℚ))
                (selectSeed histDemo.getPointsFromMostFrequentBin (fun _ => (1 : ℚ))).1 →
          (selectSeed histDemo.getPointsFromMostFrequentBin (fun _ => (1 : ℚ))).1 ≤ i)) :=
  ⟨⟨by decide, by decide⟩,
    seed_selection_min_mse_first histDemo (fun _ => (1 : ℚ)) (by decide) (by decide)⟩

/-- Claim C9.  After construction and after any sequence of `removePoint`
calls of the kind the region grower performs (distinct masked points),
the histogram maintains: for each point `i`, `bins[i] = -1` iff `i` is not
currently in the histogram (not masked, or already removed); otherwise
`bins[i]` is `i`'s bin id and `hist[bins[i]] > 0`.  (The coordinate
hypothesis reflects that the quantized spherical coordinates of a real
normal are nonnegative, making every assigned bin id nonnegative.) -/
theorem histogram_bins_invariant (B n : ℕ) (coords : ℕ → ℤ × ℤ)
    (mask : ℕ → Bool) (l : List ℕ) (hnd : l.Nodup)
    (hmem : ∀ p ∈ l, p < n ∧ mask p = true)
    (hrange : ∀ i, mask i = true → 0 ≤ (coords i).1 ∧ 0 ≤ (coords i).2) :
    ∀ i, i < n →
      (((l.foldl Histogram.removePoint (Histogram.build B n coords mask)).bins i
          = -1) ↔ ¬(mask i = true ∧ i ∉ l)) ∧
      (mask i = true → i ∉ l →
        (l.foldl Histogram.removePoint (Histogram.build B n coords mask)).bins i
            = binOfCoords B (coords i) ∧
        0 < (l.foldl Histogram.removePoint (Histogram.build B n coords mask)).hist
              ((l.foldl Histogram.removePoint
                  (Histogram.build B n coords mask)).bins i)) := by
  obtain ⟨hbins, hhist⟩ := hist_remove_fold l (Histogram.build B n coords mask)
    (fun _ => true) hnd
    (fun p hp => ⟨(hmem p hp).1, (hmem p hp).2, rfl⟩)
    (hist_build_inv B n coords mask)
  intro i hi
  have hb := hbins i hi
  have hposbin : ∀ j, mask j = true → 0 ≤ binOfCoords B (coords j) := by
    intro j hj
    obtain ⟨h1, h2⟩ := hrange j hj
    unfold binOfCoords
    have hyq : (0 : ℤ) ≤ (if 0 < (coords j).1 then (coords j).2 else 0) := by
      by_cases hx : 0 < (coords j).1
      · rw [if_pos hx]; exact h2
      · rw [if_neg hx]
    have hB : (0 : ℤ) ≤ (B : ℤ) := Int.natCast_nonneg B
    exact Int.add_nonneg (mul_nonneg hyq hB) h1
  constructor
  · constructor
    · intro hneg
      intro hc
      have hcond : (mask i && ((fun _ => true) i && decide (i ∉ l))) = true := by
        simp [hc.1, hc.2]
      rw [hb, if_pos hcond] at hneg
      exact absurd (hneg ▸ hposbin i hc.1) (by decide)
    · intro hc
      rw [hb, if_neg]
      intro hcond
      apply hc
      simp only [Bool.and_eq_true, decide_eq_true_eq] at hcond
      exact ⟨hcond.1, hcond.2.2⟩
  · intro hmi hil
    have hcond : (mask i && ((fun _ => true) i && decide (i ∉ l))) = true := by
      simp [hmi, hil]
    rw [hb, if_pos hcond]
    refine ⟨rfl, ?_⟩
    rw [hhist]
    unfold binCount
    have hf : i ∈ (List.range n).filter
        (fun j => mask j && ((fun _ => true) j && decide (j ∉ l)) &&
          decide (binOfCoords B (coords j) = binOfCoords B (coords i))) := by
      apply List.mem_filter.mpr
      exact ⟨List.mem_range.mpr hi, by simp [hmi, hil]⟩
    have hlen := List.length_pos.mpr (List.ne_nil_of_mem hf)
    exact_mod_cast hlen

/-- Claim C9, witness: a one-bin two-point histogram with point 0 removed;
point 1 remains with bin id 0 of positive occupancy, point 0 reads `-1`. -/
theorem histogram_bins_invariant_witness :
    (([0] : List ℕ).Nodup ∧ (∀ p ∈ ([0] : List ℕ), p < 2 ∧ (fun _ => true) p = true)) ∧
    ((((([0] : List ℕ).foldl Histogram.removePoint
          (Histogram.build 1 2 (fun _ => ((0 : ℤ), (0 : ℤ))) (fun _ => true))).bins 1
        = -1) ↔ ¬((fun _ => true) 1 = true ∧ 1 ∉ ([0] : List ℕ))) ∧
    ((fun _ => true) 1 = true → 1 ∉ ([0] : List ℕ) →
      (([0] : List ℕ).foldl Histogram.removePoint
          (Histogram.build 1 2 (fun _ => ((0 : ℤ), (0 : ℤ))) (fun _ => true))).bins 1
          = binOfCoords 1 ((fun _ => ((0 : ℤ), (0 : ℤ))) 1) ∧
      0 < (([0] : List ℕ).foldl Histogram.removePoint
            (Histogram.build 1 2 (fun _ => ((0 : ℤ), (0 : ℤ))) (fun _ => true))).hist
            ((([0] : List ℕ).foldl Histogram.removePoint
                (Histogram.build 1 2 (fun _ => ((0 : ℤ), (0 : ℤ)))
                  (fun _ => true))).bins 1))) :=
  ⟨⟨by decide, by decide⟩,
    histogram_bins_invariant 1 2 (fun _ => ((0 : ℤ), (0 : ℤ))) (fun _ => true)
      [0] (by decide) (by decide) (fun i _ => ⟨le_refl 0, le_refl 0⟩) 1 (by decide)⟩

/-- Claim C8.  A `growSeed` call on in-range coordinates returns normally,
and the reached cell ends up activated iff it was already activated or it
is unassigned and passes the compatibility test against the parent
(`cos >= minCosAngleForMerge` and squared distance within `tol`); every
cell newly activated anywhere in the flood is unassigned and passed the
test against the parent it was reached from; and upon activation the call
equals the sequential recursion into the four neighbors in the order left,
right, up, down, each with the activated cell as the new parent. -/
theorem growSeed_activation_condition (Hc Wc : ℕ) (minCos : ℚ)
    (der : ℕ → Derived) (tols : ℕ → ℚ) (unassigned : ℕ → Bool)
    (fuel x y prev : ℕ) (amap : ℕ → Bool) (hx : x < Wc) (hy : y < Hc) :
    ∃ r, growSeedE Hc Wc minCos der tols unassigned (fuel + 1) x y prev amap
        = Except.ok r ∧
      (r (x + Wc * y) = true ↔
        (amap (x + Wc * y) = true ∨
          (unassigned (x + Wc * y) = true ∧
            growCompat minCos der tols prev (x + Wc * y)))) ∧
      (∀ c, r c = true → amap c = true ∨
        (unassigned c = true ∧ ∃ par, growCompat minCos der tols par c)) ∧
      (unassigned (x + Wc * y) = true → amap (x + Wc * y) = false →
        growCompat minCos der tols prev (x + Wc * y) →
        growSeedE Hc Wc minCos der tols unassigned (fuel + 1) x y prev amap
          = ((if 0 < x then growSeedE Hc Wc minCos der tols unassigned fuel (x - 1) y
                (x + Wc * y) (upd amap (x + Wc * y) true)
              else Except.ok (upd amap (x + Wc * y) true)).bind fun am2 =>
             (if x < Wc - 1 then growSeedE Hc Wc minCos der tols unassigned fuel (x + 1) y
                (x + Wc * y) am2 else Except.ok am2).bind fun am3 =>
             (if 0 < y then growSeedE Hc Wc minCos der tols unassigned fuel x (y - 1)
                (x + Wc * y) am3 else Except.ok am3).bind fun am4 =>
             (if y < Hc - 1 then growSeedE Hc Wc minCos der tols unassigned fuel x (y + 1)
                (x + Wc * y) am4 else Except.ok am4))) := by
  obtain ⟨r, hr⟩ := growSeedE_ok Hc Wc minCos der tols unassigned (fuel + 1)
    x y prev amap hx hy
  have hidx : ¬(Hc * Wc ≤ x + Wc * y) := idx_not_le hx hy
  refine ⟨r, hr, ?_, growSeedE_sound Hc Wc minCos der tols unassigned _ _ _ _ _ _ hr, ?_⟩
  · have hr2 := hr
    rw [growSeedE] at hr2
    rw [if_neg hidx] at hr2
    constructor
    · intro hri
      by_cases h1 : (!unassigned (x + Wc * y) || amap (x + Wc * y)) = true
      · rw [if_pos h1] at hr2
        injection hr2 with hr2
        subst hr2
        exact Or.inl hri
      · have hun : unassigned (x + Wc * y) = true ∧ amap (x + Wc * y) = false := by
          constructor
          · by_contra hc
            apply h1
            simp only [Bool.or_eq_true, Bool.not_eq_true] at hc
            simp [hc]
          · by_contra hc
            apply h1
            simp only [Bool.not_eq_false] at hc
            simp [hc]
        rw [if_neg h1] at hr2
        by_cases h2 : dot3 (der prev).normal (der (x + Wc * y)).normal < minCos ∨
            tols (x + Wc * y)
              < sqQ (dot3 (der prev).normal (der (x + Wc * y)).mean + (der prev).d)
        · rw [if_pos h2] at hr2
          injection hr2 with hr2
          subst hr2
          rw [hri] at hun
          exact absurd hun.2 (by simp)
        · exact Or.inr ⟨hun.1, not_or.mp h2⟩
    · intro hrhs
      rcases hrhs with ha | ⟨hu, hcompat⟩
      · exact growSeedE_mono Hc Wc minCos der tols unassigned _ _ _ _ _ _ hr _ ha
      · by_cases ha : amap (x + Wc * y) = true
        · exact growSeedE_mono Hc Wc minCos der tols unassigned _ _ _ _ _ _ hr _ ha
        · have h1 : ¬((!unassigned (x + Wc * y) || amap (x + Wc * y)) = true) := by
            simp [hu, Bool.eq_false_iff.mpr ha]
          have h2 : ¬(dot3 (der prev).normal (der (x + Wc * y)).normal < minCos ∨
              tols (x + Wc * y)
                < sqQ (dot3 (der prev).normal (der (x + Wc * y)).mean + (der prev).d)) :=
            not_or.mpr ⟨hcompat.1, hcompat.2⟩
          rw [if_neg h1, if_neg h2] at hr2
          simp only at hr2
          obtain ⟨m2, hm2, hrest⟩ := bind_eq_ok hr2
          obtain ⟨m3, hm3, hrest2⟩ := bind_eq_ok hrest
          obtain ⟨m4, hm4, hrest3⟩ := bind_eq_ok hrest2
          have s1 : upd amap (x + Wc * y) true (x + Wc * y) = true := by
            unfold upd
            rw [if_pos rfl]
          have s2 : m2 (x + Wc * y) = true := guard_mono hm2
            (fun hc he => growSeedE_mono Hc Wc minCos der tols unassigned _ _ _ _ _ _ he)
            _ s1
          have s3 : m3 (x + Wc * y) = true := guard_mono hm3
            (fun hc he => growSeedE_mono Hc Wc minCos der tols unassigned _ _ _ _ _ _ he)
            _ s2
          have s4 : m4 (x + Wc * y) = true := guard_mono hm4
            (fun hc he => growSeedE_mono Hc Wc minCos der tols unassigned _ _ _ _ _ _ he)
            _ s3
          exact guard_mono hrest3
            (fun hc he => growSeedE_mono Hc Wc minCos der tols unassigned _ _ _ _ _ _ he)
            _ s4
  · intro hu ha hcompat
    have h1 : ¬((!unassigned (x + Wc * y) || amap (x + Wc * y)) = true) := by
      simp [hu, ha]
    have h2 : ¬(dot3 (der prev).normal (der (x + Wc * y)).normal < minCos ∨
        tols (x + Wc * y)
          < sqQ (dot3 (der prev).normal (der (x + Wc * y)).mean + (der prev).d)) :=
      not_or.mpr ⟨hcompat.1, hcompat.2⟩
    rw [growSeedE, if_neg hidx, if_neg h1, if_neg h2]

/-- Claim C8, witness: a `1 x 1` grid with a compatible unassigned cell. -/
theorem growSeed_activation_condition_witness :
    (0 < 1 ∧ 0 < 1) ∧
    ∃ r, growSeedE 1 1 (9/10) (fun _ => segA.der) (fun _ => 400) (fun _ => true)
        (0 + 1) 0 0 0 (fun _ => false) = Except.ok r ∧
      (r (0 + 1 * 0) = true ↔
        ((fun _ => false) (0 + 1 * 0) = true ∨
          ((fun _ => true) (0 + 1 * 0) = true ∧
            growCompat (9/10) (fun _ => segA.der) (fun _ => 400) 0 (0 + 1 * 0)))) ∧
      (∀ c, r c = true → (fun _ => false) c = true ∨
        ((fun _ => true) c = true ∧
          ∃ par, growCompat (9/10) (fun _ => segA.der) (fun _ => 400) par c)) ∧
      ((fun _ => true) (0 + 1 * 0) = true → (fun _ => false) (0 + 1 * 0) = false →
        growCompat (9/10) (fun _ => segA.der) (fun _ => 400) 0 (0 + 1 * 0) →
        growSeedE 1 1 (9/10) (fun _ => segA.der) (fun _ => 400) (fun _ => true)
            (0 + 1) 0 0 0 (fun _ => false)
          = ((if 0 < 0 then growSeedE 1 1 (9/10) (fun _ => segA.der) (fun _ => 400)
                (fun _ => true) 0 (0 - 1) 0 (0 + 1 * 0)
                (upd (fun _ => false) (0 + 1 * 0) true)
              else Except.ok (upd (fun _ => false) (0 + 1 * 0) true)).bind fun am2 =>
             (if 0 < 1 - 1 then growSeedE 1 1 (9/10) (fun _ => segA.der) (fun _ => 400)
                (fun _ => true) 0 (0 + 1) 0 (0 + 1 * 0) am2
              else Except.ok am2).bind fun am3 =>
             (if 0 < 0 then growSeedE 1 1 (9/10) (fun _ => segA.der) (fun _ => 400)
                (fun _ => true) 0 0 (0 - 1) (0 + 1 * 0) am3
              else Except.ok am3).bind fun am4 =>
             (if 0 < 1 - 1 then growSeedE 1 1 (9/10) (fun _ => segA.der) (fun _ => 400)
                (fun _ => true) 0 0 (0 + 1) (0 + 1 * 0) am4
              else Except.ok am4))) :=
  ⟨⟨by decide, by decide⟩,
    growSeed_activation_condition 1 1 (9/10) (fun _ => segA.der) (fun _ => 400)
      (fun _ => true) 0 0 0 0 (fun _ => false) (by decide) (by decide)⟩

/-- Claim C10.  For a seed index below the total cell count, the
coordinates `x = seed mod W_cells`, `y = seed / W_cells` computed by
`createPlaneSegments` are in range, they recompose to the seed index
(`x + W_cells * y = seed < N_cells`), and the whole recursive `growSeed`
flood returns normally: the guards `x > 0`, `x < W_cells - 1`, `y > 0`,
`y < H_cells - 1` keep every recursive call in range, so the
out-of-range error branch is never taken. -/
theorem growSeed_index_in_range (Hc Wc : ℕ) (minCos : ℚ) (der : ℕ → Derived)
    (tols : ℕ → ℚ) (unassigned : ℕ → Bool) (fuel seedId : ℕ) (amap : ℕ → Bool)
    (hseed : seedId < Hc * Wc) :
    seedId % Wc < Wc ∧ seedId / Wc < Hc ∧
    seedId % Wc + Wc * (seedId / Wc) = seedId ∧
    ∃ r, growSeedE Hc Wc minCos der tols unassigned fuel (seedId % Wc)
        (seedId / Wc) seedId amap = Except.ok r := by
  have hWc : 0 < Wc := by
    rcases Nat.eq_zero_or_pos Wc with h | h
    · rw [h, Nat.mul_zero] at hseed; exact absurd hseed (Nat.not_lt_zero seedId)
    · exact h
  have hx : seedId % Wc < Wc := Nat.mod_lt _ hWc
  have hy : seedId / Wc < Hc := by
    apply Nat.div_lt_of_lt_mul
    rw [Nat.mul_comm Wc Hc]
    exact hseed
  exact ⟨hx, hy, Nat.mod_add_div seedId Wc,
    growSeedE_ok Hc Wc minCos der tols unassigned fuel _ _ seedId amap hx hy⟩

/-- Claim C10, witness: seed 3 on a `2 x 2` cell grid. -/
theorem growSeed_index_in_range_witness :
    (3 < 2 * 2) ∧
    (3 % 2 < 2 ∧ 3 / 2 < 2 ∧ 3 % 2 + 2 * (3 / 2) = 3 ∧
      ∃ r, growSeedE 2 2 (9/10) (fun _ => segA.der) (fun _ => 400)
          (fun _ => true) 5 (3 % 2) (3 / 2) 3 (fun _ => false) = Except.ok r) :=
  ⟨by decide,
    growSeed_index_in_range 2 2 (9/10) (fun _ => segA.der) (fun _ => 400)
      (fun _ => true) 5 3 (fun _ => false) (by decide)⟩

/-- Claim C4, amended.  The association matrix relates exactly those pairs
of distinct positive labels recorded at a scan position `(r, c)` with
`r < rows - 1` and `c < cols - 1` (in either orientation, thanks to the
symmetrization): the cell at `(r, c)` has label `a + 1 > 0` and its right
or down neighbor has a different positive label `b + 1`.  Horizontal
adjacencies whose left cell is in the last row and vertical adjacencies
whose top cell is in the last column are not recorded, because the scan
loops stop one row and one column early. -/
theorem getConnectedComponents_characterization (K Hc Wc : ℕ) (grid : ℕ → ℕ)
    (a b : ℕ) (ha : a < K) (hb : b < K) :
    getConnectedComponents K Hc Wc grid a b = true ↔
      ((∃ r c, r < Hc - 1 ∧ c < Wc - 1 ∧ ccContrib Wc grid (r, c) a b) ∨
       (∃ r c, r < Hc - 1 ∧ c < Wc - 1 ∧ ccContrib Wc grid (r, c) b a)) := by
  unfold getConnectedComponents
  rw [ccSymmetrize_eq K _ a b ha hb, Bool.or_eq_true,
      ccScanFold_mem, ccScanFold_mem]
  constructor
  · rintro (h | h)
    · rcases h with hf | ⟨rc, hrc, hcc⟩
      · exact absurd hf (by simp)
      · obtain ⟨h1, h2⟩ := (ccScanPositions_mem Hc Wc rc).mp hrc
        exact Or.inl ⟨rc.1, rc.2, h1, h2, hcc⟩
    · rcases h with hf | ⟨rc, hrc, hcc⟩
      · exact absurd hf (by simp)
      · obtain ⟨h1, h2⟩ := (ccScanPositions_mem Hc Wc rc).mp hrc
        exact Or.inr ⟨rc.1, rc.2, h1, h2, hcc⟩
  · rintro (⟨r, c, h1, h2, hcc⟩ | ⟨r, c, h1, h2, hcc⟩)
    · exact Or.inl (Or.inr ⟨(r, c),
        (ccScanPositions_mem Hc Wc (r, c)).mpr ⟨h1, h2⟩, hcc⟩)
    · exact Or.inr (Or.inr ⟨(r, c),
        (ccScanPositions_mem Hc Wc (r, c)).mpr ⟨h1, h2⟩, hcc⟩)

/-- Claim C4 (amended), witness: on the `2 x 2` grid `[[1, 2], [0, 0]]`
labels 1 and 2 are adjacent at scan position `(0, 0)`. -/
theorem getConnectedComponents_characterization_witness :
    (0 < 2 ∧ 1 < 2) ∧
    (getConnectedComponents 2 2 2 (fun i => ([1, 2, 0, 0] : List ℕ).getD i 0)
        0 1 = true ↔
      ((∃ r c, r < 2 - 1 ∧ c < 2 - 1 ∧
          ccContrib 2 (fun i => ([1, 2, 0, 0] : List ℕ).getD i 0) (r, c) 0 1) ∨
       (∃ r c, r < 2 - 1 ∧ c < 2 - 1 ∧
          ccContrib 2 (fun i => ([1, 2, 0, 0] : List ℕ).getD i 0) (r, c) 1 0))) :=
  ⟨⟨by decide, by decide⟩,
    getConnectedComponents_characterization 2 2 2
      (fun i => ([1, 2, 0, 0] : List ℕ).getD i 0) 0 1 (by decide) (by decide)⟩

/-- Claim C6, witness: a `3 x 2` image with patch size 2 has margin row 2;
the margin pixel `(2, 0)` of the refined label image is 0. -/
theorem process_margin_pixels_zero_witness :
    (process unitOracle { cfgDemo with patchSize := 2 } 3 2
      (initState unitOracle) []).1.length = 3 * 2 ∧
    (process unitOracle { cfgDemo with patchSize := 2 } 3 2
      (initState unitOracle) []).1.getD (2 * 2 + 0) 0 = 0 :=
  process_margin_pixels_zero unitOracle { cfgDemo with patchSize := 2 } 3 2
    (initState unitOracle) [] 2 0 rfl (by decide) (by decide) (by decide)


end Deplex
